import Mathlib

/-!
Verification development for the inferunity inference runtime.

This file gives a shallow embedding, in Lean 4, of the parts of the C++
source that the checked properties talk about:

* the core data model (Shape, Tensor, Status from include/inferunity/types.h
  and include/inferunity/tensor.h),
* the graph IR (Value, Node, Graph from src/core/graph.cpp): the C++ code
  navigates raw pointers between heap-allocated Node and Value objects owned
  by the Graph; the embedding is the equivalent arena form in which every
  cross-reference is the integer id of the referenced record and the Graph
  holds the records themselves.  Pointer equality becomes id equality, which
  agrees with the source whenever ids are distinct (the ids are generated by
  a monotone counter and Graph::Validate rejects duplicate ids),
* Graph::TopologicalSort and Graph::Validate,
* the optimizer passes DeadCodeEliminationPass, OperatorFusionPass,
  MemoryLayoutOptimizationPass and SubgraphReplacementPass from
  src/optimizers,
* the Div kernel (src/operators/math.cpp) and the Gather kernel
  (src/operators/shape.cpp).

Machine floats (f32) are embedded as exact rationals: the properties checked
about the kernels concern control flow (which branch runs, which elements are
read and written), not rounding.  Fields of the C++ classes that none of the
checked properties mention (device tags, allocators, names used only for
logging) are omitted; everything else follows the source line by line, and
comments below cite the source files and line numbers being translated.
-/

namespace InferUnity

/-- DataType from include/inferunity/types.h (the members the claims use). -/
inductive DataType where
  | FLOAT32
  | FLOAT16
  | INT32
  | INT64
  | INT8
  | UINT8
  | UNKNOWN
deriving Repr, DecidableEq

/-- MemoryLayout from include/inferunity/types.h.  In the source the
underlying values are NCHW = 0, NHWC = 1, NCDHW = 2, NDHWC = 3,
UNKNOWN = 255; a value-initialized member (as produced by
unordered_map operator[] on a missing key) is 0, i.e. NCHW. -/
inductive MemoryLayout where
  | NCHW
  | NHWC
  | NCDHW
  | NDHWC
  | UNKNOWN
deriving Repr, DecidableEq

/-- StatusCode from include/inferunity/types.h.  Note the enum has no
shape-mismatch member. -/
inductive StatusCode where
  | SUCCESS
  | ERROR_INVALID_ARGUMENT
  | ERROR_OUT_OF_MEMORY
  | ERROR_NOT_FOUND
  | ERROR_NOT_IMPLEMENTED
  | ERROR_RUNTIME_ERROR
  | ERROR_INVALID_MODEL
  | ERROR_DEVICE_ERROR
  | ERROR_UNKNOWN
deriving Repr, DecidableEq

/-- Status: a status code plus a human-readable message. -/
structure Status where
  code : StatusCode
  msg : String := ""
deriving Repr, DecidableEq

/-- Status::Ok(). -/
def Status.ok : Status := { code := .SUCCESS }

/-- Status::Error(code, msg). -/
def Status.error (c : StatusCode) (m : String) : Status := { code := c, msg := m }

/-- Status::IsOk(). -/
def Status.isOk (s : Status) : Bool := s.code == .SUCCESS

/-- Shape from include/inferunity/types.h: a dims vector plus per-dim
dynamic flags. -/
structure Shape where
  dims : List Int := []
  isDynamic : List Bool := []
deriving Repr, DecidableEq

/-- Shape::GetElementCount(): the product of the positive dims (dims that
are not positive are skipped, so the count is always at least 1). -/
def Shape.elementCount (s : Shape) : Int :=
  s.dims.foldl (fun count dim => if dim > 0 then count * dim else count) 1

/-- The element count is positive: the fold starts at 1 and multiplies only
by positive dims. -/
theorem Shape.elementCount_pos (s : Shape) : 0 < s.elementCount := by
  have key : ∀ (l : List Int) (acc : Int), 0 < acc →
      0 < l.foldl (fun count dim => if dim > 0 then count * dim else count) acc := by
    intro l
    induction l with
    | nil => intro acc h; simpa using h
    | cons d rest ih =>
      intro acc h
      simp only [List.foldl_cons]
      by_cases hd : d > 0
      · simp only [hd, if_pos]
        exact ih _ (mul_pos h hd)
      · simp only [hd, if_neg, not_false_iff]
        exact ih _ h
  exact key s.dims 1 one_pos

/-- Tensor from include/inferunity/tensor.h, restricted to the fields the
claims mention.  The raw data pointer is embedded as an optional region id
(none models nullptr): two tensors share the underlying bytes exactly when
they hold the same region id.  Payload contents, needed by IsZeroTensor,
are carried next to the region id. -/
structure Tensor where
  shape : Shape := {}
  dtype : DataType := .FLOAT32
  layout : MemoryLayout := .NCHW
  data : Option (Nat × List ℚ) := none
  ownsData : Bool := false
deriving Repr, DecidableEq

/-- Tensor(): the default constructor (shape empty, FLOAT32, NCHW, null
data, not owning).  Tensor::Reshape returns this value when the shapes are
incompatible. -/
def Tensor.defaultTensor : Tensor := {}

/-- Tensor::Reshape from src/core/tensor.cpp lines 80-99: if the element
counts differ and both are positive the function returns a default
constructed Tensor, otherwise it returns a view that copies the dtype and
layout, takes the new shape, shares the data pointer and does not own it. -/
def Tensor.reshape (t : Tensor) (newShape : Shape) : Tensor :=
  let oldCount := t.shape.elementCount
  let newCount := newShape.elementCount
  if oldCount ≠ newCount ∧ oldCount > 0 ∧ newCount > 0 then
    Tensor.defaultTensor
  else
    { shape := newShape
      dtype := t.dtype
      layout := t.layout
      data := t.data
      ownsData := false }

/-- The rational constant 1e-8, the divisor threshold of the Div kernel. -/
def divEpsilon : ℚ := 1 / 100000000

/-- DivOperator::Execute from src/operators/math.cpp lines 291-318, inner
loop over the element index: for count elements, if the divisor magnitude
is below 1e-8 the output element is 0, otherwise it is the quotient.  The
f32 arrays are embedded as lists of exact rationals; count is the output
element count, which for equally-shaped inputs equals the common length,
and out-of-range reads (which the source never performs for equal shapes)
are embedded as reading 0. -/
def divExecute (a b : List ℚ) (count : Nat) : List ℚ :=
  (List.range count).map fun i =>
    let divisor := b.getD i 0
    if |divisor| < divEpsilon then 0 else a.getD i 0 / divisor

/-- C5.  Tensor::Reshape returns a non-owning view sharing the data pointer
of the source when the element counts agree, and whenever the counts differ
(both counts are necessarily positive) it fails by returning the default
empty Tensor, the only failure channel of a function returning Tensor by
value: the result then shares no data with the source and carries no shape.
The source has no shape-mismatch StatusCode; the returned default Tensor is
how the shape mismatch is signalled. -/
theorem reshape_view_or_mismatch (t : Tensor) (newShape : Shape) :
    (t.shape.elementCount = newShape.elementCount →
      (t.reshape newShape).data = t.data ∧
      (t.reshape newShape).ownsData = false ∧
      (t.reshape newShape).shape = newShape ∧
      (t.reshape newShape).dtype = t.dtype) ∧
    (t.shape.elementCount ≠ newShape.elementCount →
      0 < t.shape.elementCount ∧ 0 < newShape.elementCount ∧
      t.reshape newShape = Tensor.defaultTensor) := by
  constructor
  · intro h
    have hc : ¬ (t.shape.elementCount ≠ newShape.elementCount ∧
        t.shape.elementCount > 0 ∧ newShape.elementCount > 0) := by
      intro hc
      exact hc.1 h
    simp only [Tensor.reshape]
    rw [if_neg hc]
    exact ⟨rfl, rfl, rfl, rfl⟩
  · intro h
    refine ⟨t.shape.elementCount_pos, newShape.elementCount_pos, ?_⟩
    have hc : (t.shape.elementCount ≠ newShape.elementCount ∧
        t.shape.elementCount > 0 ∧ newShape.elementCount > 0) :=
      ⟨h, t.shape.elementCount_pos, newShape.elementCount_pos⟩
    simp only [Tensor.reshape]
    rw [if_pos hc]

/-- Witness for C5 at concrete inputs: a 2 by 3 tensor owning region 7
reshaped to shape 6 yields a view of region 7, and reshaped to shape 4
yields the default tensor. -/
theorem reshape_view_or_mismatch_witness :
    (({ shape := { dims := [2, 3], isDynamic := [false, false] },
        data := some (7, []), ownsData := true } : Tensor).reshape
          { dims := [6], isDynamic := [false] }).data = some (7, []) ∧
    (({ shape := { dims := [2, 3], isDynamic := [false, false] },
        data := some (7, []), ownsData := true } : Tensor).reshape
          { dims := [4], isDynamic := [false] }) = Tensor.defaultTensor := by
  constructor
  · exact ((reshape_view_or_mismatch _ _).1 (by decide)).1
  · exact ((reshape_view_or_mismatch _ _).2 (by decide)).2.2

/-- C6.  For the Div kernel on equally-shaped f32 inputs, every output
element whose divisor has magnitude below 1e-8 (in particular a divisor
that is exactly 0) equals 0, and every other output element equals the
quotient of the corresponding input elements; the output has one element
per input element. -/
theorem div_small_divisor_policy (a b : List ℚ) (_h : a.length = b.length)
    (i : Nat) (hi : i < b.length) :
    (divExecute a b b.length).length = b.length ∧
    (|b.getD i 0| < divEpsilon →
      (divExecute a b b.length).getD i 0 = 0) ∧
    (b.getD i 0 = 0 → (divExecute a b b.length).getD i 0 = 0) ∧
    (divEpsilon ≤ |b.getD i 0| →
      (divExecute a b b.length).getD i 0 = a.getD i 0 / b.getD i 0) := by
  have hlen : (divExecute a b b.length).length = b.length := by
    simp [divExecute]
  have hget : (divExecute a b b.length).getD i 0 =
      (if |b.getD i 0| < divEpsilon then 0 else a.getD i 0 / b.getD i 0) := by
    simp only [divExecute, List.getD_eq_getElem?_getD, List.getElem?_map,
      List.getElem?_range hi, Option.map_some', Option.getD_some]
  refine ⟨hlen, ?_, ?_, ?_⟩
  · intro hsmall
    rw [hget, if_pos hsmall]
  · intro hzero
    have hsmall : |b.getD i 0| < divEpsilon := by
      rw [hzero]
      simp [divEpsilon]
    rw [hget, if_pos hsmall]
  · intro hbig
    rw [hget, if_neg (not_lt.mpr hbig)]

/-- Witness for C6 at concrete inputs: dividing [1, 5, 7] by [2, 0, 1/200000000],
the exactly-zero divisor at index 1 and the tiny divisor at index 2 both
yield 0. -/
theorem div_small_divisor_policy_witness :
    (divExecute [(1 : ℚ), 5, 7] [(2 : ℚ), 0, 1/200000000] 3).getD 1 0 = 0 ∧
    (divExecute [(1 : ℚ), 5, 7] [(2 : ℚ), 0, 1/200000000] 3).getD 2 0 = 0 := by
  constructor
  · exact (div_small_divisor_policy [(1 : ℚ), 5, 7] [(2 : ℚ), 0, 1/200000000]
      rfl 1 (by norm_num)).2.2.1 rfl
  · refine (div_small_divisor_policy [(1 : ℚ), 5, 7] [(2 : ℚ), 0, 1/200000000]
      rfl 2 (by norm_num)).2.1 ?_
    show |(1 : ℚ)/200000000| < divEpsilon
    rw [divEpsilon, abs_of_pos (by norm_num)]
    norm_num

/-- Value from include/inferunity/graph.h: id, optional bound Tensor,
optional producer node and the consumer node list.  Node and Value
references are embedded as ids. -/
structure Value where
  id : Int
  tensor : Option Tensor := none
  producer : Option Int := none
  consumers : List Int := []
deriving Repr, DecidableEq

/-- Value::AddConsumer from src/core/graph.cpp lines 23-27: append the node
unless it is already present. -/
def Value.addConsumer (v : Value) (nid : Int) : Value :=
  if nid ∈ v.consumers then v else { v with consumers := v.consumers ++ [nid] }

/-- Value::RemoveConsumer from src/core/graph.cpp lines 29-34: erase every
occurrence of the node. -/
def Value.removeConsumer (v : Value) (nid : Int) : Value :=
  { v with consumers := v.consumers.filter (fun x => x ≠ nid) }

/-- Node from include/inferunity/graph.h: id, op type, name, ordered input
and output Value ids and the attribute map (an unordered string map,
embedded as an association list without duplicate keys). -/
structure Node where
  id : Int
  opType : String
  name : String := ""
  inputs : List Int := []
  outputs : List Int := []
  attrs : List (String × String) := []
deriving Repr, DecidableEq

/-- Node::SetAttribute from src/core/graph.cpp lines 69-71: insert or
overwrite the binding for the key. -/
def Node.setAttribute (n : Node) (k v : String) : Node :=
  if n.attrs.any (fun p => p.1 == k) then
    { n with attrs := n.attrs.map (fun p => if p.1 == k then (k, v) else p) }
  else
    { n with attrs := n.attrs ++ [(k, v)] }

/-- Node::HasAttribute from src/core/graph.cpp lines 78-80. -/
def Node.hasAttribute (n : Node) (k : String) : Bool :=
  n.attrs.any (fun p => p.1 == k)

/-- Node::GetAttribute from src/core/graph.cpp lines 73-76. -/
def Node.getAttribute (n : Node) (k dflt : String) : String :=
  match n.attrs.find? (fun p => p.1 == k) with
  | some p => p.2
  | none => dflt

/-- Graph from include/inferunity/graph.h: the arena of Nodes and Values
plus the graph input and output Value id lists and the two id counters. -/
structure Graph where
  nodes : List Node := []
  values : List Value := []
  inputs : List Int := []
  outputs : List Int := []
  nextNodeId : Int := 0
  nextValueId : Int := 0
deriving Repr, DecidableEq

/-- Graph::GetNode by id (pointer lookup in the arena embedding). -/
def Graph.findNode? (g : Graph) (nid : Int) : Option Node :=
  g.nodes.find? (fun n => n.id == nid)

/-- Value lookup by id (pointer dereference in the arena embedding). -/
def Graph.findValue? (g : Graph) (vid : Int) : Option Value :=
  g.values.find? (fun v => v.id == vid)

/-- Apply an update to the value with the given id (in C++ this is a
mutation through the Value pointer). -/
def Graph.updateValue (g : Graph) (vid : Int) (f : Value → Value) : Graph :=
  { g with values := g.values.map (fun v => if v.id == vid then f v else v) }

/-- Apply an update to the node with the given id (in C++ this is a
mutation through the Node pointer). -/
def Graph.updateNode (g : Graph) (nid : Int) (f : Node → Node) : Graph :=
  { g with nodes := g.nodes.map (fun n => if n.id == nid then f n else n) }

/-- Node::AddInput from src/core/graph.cpp lines 37-42: when the value is
not already an input, append it to the input list and register the node as
a consumer of the value.  When it is already an input, nothing changes. -/
def Graph.nodeAddInput (g : Graph) (nid vid : Int) : Graph :=
  match g.findNode? nid with
  | none => g
  | some n =>
    if vid ∈ n.inputs then g
    else
      (g.updateNode nid (fun m => { m with inputs := m.inputs ++ [vid] })).updateValue
        vid (fun v => v.addConsumer nid)

/-- Node::AddOutput from src/core/graph.cpp lines 44-49: when the value is
not already an output, append it and set the producer of the value to the
node. -/
def Graph.nodeAddOutput (g : Graph) (nid vid : Int) : Graph :=
  match g.findNode? nid with
  | none => g
  | some n =>
    if vid ∈ n.outputs then g
    else
      (g.updateNode nid (fun m => { m with outputs := m.outputs ++ [vid] })).updateValue
        vid (fun v => { v with producer := some nid })

/-- Node::RemoveInput from src/core/graph.cpp lines 51-57: erase the value
from the input list and the node from the consumer list of the value. -/
def Graph.nodeRemoveInput (g : Graph) (nid vid : Int) : Graph :=
  (g.updateNode nid (fun m => { m with inputs := m.inputs.filter (fun x => x ≠ vid) })).updateValue
    vid (fun v => v.removeConsumer nid)

/-- Node::RemoveOutput from src/core/graph.cpp lines 59-67: erase the value
from the output list; clear the producer of the value if it is this node. -/
def Graph.nodeRemoveOutput (g : Graph) (nid vid : Int) : Graph :=
  (g.updateNode nid (fun m => { m with outputs := m.outputs.filter (fun x => x ≠ vid) })).updateValue
    vid (fun v => if v.producer == some nid then { v with producer := none } else v)

/-- Graph::AddNode from src/core/graph.cpp lines 88-93: create a node with
the next generated id and append it; return the new graph and the id. -/
def Graph.addNode (g : Graph) (opType name : String) : Graph × Int :=
  let nid := g.nextNodeId
  ({ g with
      nodes := g.nodes ++ [{ id := nid, opType := opType, name := name }]
      nextNodeId := nid + 1 }, nid)

/-- Graph::AddValue from src/core/graph.cpp lines 132-137. -/
def Graph.addValue (g : Graph) : Graph × Int :=
  let vid := g.nextValueId
  ({ g with
      values := g.values ++ [{ id := vid }]
      nextValueId := vid + 1 }, vid)

/-- Graph::AddInput from src/core/graph.cpp lines 169-173 (appends unless
present). -/
def Graph.addGraphInput (g : Graph) (vid : Int) : Graph :=
  if vid ∈ g.inputs then g else { g with inputs := g.inputs ++ [vid] }

/-- Graph::AddOutput from src/core/graph.cpp lines 175-179 (appends unless
present). -/
def Graph.addGraphOutput (g : Graph) (vid : Int) : Graph :=
  if vid ∈ g.outputs then g else { g with outputs := g.outputs ++ [vid] }

/-- Graph::RemoveNode from src/core/graph.cpp lines 113-130: remove the
node from the consumer list of each of its inputs, clear the producer of
each of its outputs that it produces, then erase the node itself. -/
def Graph.removeNode (g : Graph) (nid : Int) : Graph :=
  match g.findNode? nid with
  | none => g
  | some n =>
    let g1 := n.inputs.foldl
      (fun h vid => h.updateValue vid (fun v => v.removeConsumer nid)) g
    let g2 := n.outputs.foldl
      (fun h vid => h.updateValue vid
        (fun v => if v.producer == some nid then { v with producer := none } else v)) g1
    { g2 with nodes := g2.nodes.filter (fun m => m.id ≠ nid) }

/-- Producer of a value through the arena (input->GetProducer() in the
source; the value pointer is always valid there, and a dangling id here
reads as having no producer). -/
def Graph.producerOf (g : Graph) (vid : Int) : Option Int :=
  match g.findValue? vid with
  | none => none
  | some v => v.producer

/-- Consumers of a value through the arena (output->GetConsumers()). -/
def Graph.consumersOf (g : Graph) (vid : Int) : List Int :=
  match g.findValue? vid with
  | none => []
  | some v => v.consumers

/-- Tensor bound to a value, if the value exists (input->GetTensor()). -/
def Graph.tensorOf (g : Graph) (vid : Int) : Option Tensor :=
  match g.findValue? vid with
  | none => none
  | some v => v.tensor

/-- A map that rewrites only the element matched by the predicate, without
changing its key, commutes with find? in the expected way.  This is the
list form of an in-place mutation through a pointer obtained by lookup. -/
theorem find?_map_if {α : Type} (p : α → Bool) (f : α → α) (l : List α) (a : α)
    (hf : ∀ x, p x = true → p (f x) = true)
    (h : l.find? p = some a) :
    (l.map (fun x => if p x then f x else x)).find? p = some (f a) := by
  induction l with
  | nil => simp at h
  | cons x xs ih =>
    by_cases hx : p x = true
    · rw [List.find?_cons_of_pos _ hx] at h
      injection h with h
      subst h
      simp only [List.map_cons, if_pos hx]
      rw [List.find?_cons_of_pos _ (hf x hx)]
    · have hx2 : p x = false := by simpa using hx
      rw [List.find?_cons_of_neg _ (by simp [hx2])] at h
      simp only [List.map_cons, hx2, if_neg, Bool.false_eq_true, not_false_iff]
      rw [List.find?_cons_of_neg _ (by simp [hx2])]
      exact ih h

/-- Looking a node up after updateValue is the same as before (updateValue
touches only the values arena). -/
theorem findNode?_updateValue (g : Graph) (vid : Int) (f : Value → Value)
    (nid : Int) : (g.updateValue vid f).findNode? nid = g.findNode? nid := rfl

/-- Looking a value up after updateNode is the same as before. -/
theorem findValue?_updateNode (g : Graph) (nid : Int) (f : Node → Node)
    (vid : Int) : (g.updateNode nid f).findValue? vid = g.findValue? vid := rfl

/-- Looking up the updated node after updateNode returns the updated record,
provided the update does not change the id. -/
theorem findNode?_updateNode_self (g : Graph) (nid : Int) (f : Node → Node)
    (n : Node) (hf : ∀ m : Node, (f m).id = m.id)
    (h : g.findNode? nid = some n) :
    (g.updateNode nid f).findNode? nid = some (f n) := by
  rw [Graph.findNode?] at h ⊢
  simp only [Graph.updateNode]
  exact find?_map_if _ f g.nodes n (by intro x hx; simpa [hf x] using hx) h

/-- Looking up the updated value after updateValue returns the updated
record, provided the update does not change the id. -/
theorem findValue?_updateValue_self (g : Graph) (vid : Int) (f : Value → Value)
    (v : Value) (hf : ∀ w : Value, (f w).id = w.id)
    (h : g.findValue? vid = some v) :
    (g.updateValue vid f).findValue? vid = some (f v) := by
  rw [Graph.findValue?] at h ⊢
  simp only [Graph.updateValue]
  exact find?_map_if _ f g.values v (by intro x hx; simpa [hf x] using hx) h

/-- C10.  Node::AddInput and Value::AddConsumer deduplicate: adding an
already-present element leaves the structure unchanged (for AddInput, the
whole graph unchanged); consequently a duplicate-free input list and a
duplicate-free consumer list stay duplicate-free through these operations,
and wiring the same Value twice into a node through AddInput (the only way
a two-input op receives its inputs) is the same as wiring it once, so the
same Value can never occupy both ports. -/
theorem addInput_addConsumer_dedup (g : Graph) (n : Node) (v : Value)
    (nid vid : Int) (hn : g.findNode? nid = some n) :
    (nid ∈ v.consumers → v.addConsumer nid = v) ∧
    (vid ∈ n.inputs → g.nodeAddInput nid vid = g) ∧
    (v.consumers.Nodup → (v.addConsumer nid).consumers.Nodup) ∧
    (n.inputs.Nodup → ∀ m : Node, (g.nodeAddInput nid vid).findNode? nid = some m →
      m.inputs.Nodup) ∧
    ((g.nodeAddInput nid vid).nodeAddInput nid vid = g.nodeAddInput nid vid) := by
  have hmem : ∀ w : Value, nid ∈ (w.addConsumer nid).consumers := by
    intro w
    by_cases hw : nid ∈ w.consumers
    · simp [Value.addConsumer, hw]
    · simp [Value.addConsumer, hw]
  refine ⟨?_, ?_, ?_, ?_, ?_⟩
  · intro hmemc
    simp [Value.addConsumer, hmemc]
  · intro hmemi
    simp [Graph.nodeAddInput, hn, hmemi]
  · intro hnd
    by_cases hw : nid ∈ v.consumers
    · have hsame : v.addConsumer nid = v := by simp [Value.addConsumer, hw]
      rw [hsame]
      exact hnd
    · simp only [Value.addConsumer]
      rw [if_neg hw]
      simp [List.nodup_append, hnd, hw]
  · intro hnd m hm
    by_cases hmemi : vid ∈ n.inputs
    · simp only [Graph.nodeAddInput, hn, if_pos hmemi] at hm
      injection hm with hm
      subst hm
      exact hnd
    · simp only [Graph.nodeAddInput, hn, if_neg hmemi, findNode?_updateValue] at hm
      rw [findNode?_updateNode_self g nid
        (fun m => { m with inputs := m.inputs ++ [vid] }) n (fun m => rfl) hn] at hm
      injection hm with hm
      subst hm
      simp [List.nodup_append, hnd, hmemi]
  · by_cases hmemi : vid ∈ n.inputs
    · simp only [Graph.nodeAddInput, hn, if_pos hmemi]
    · have h1 : g.nodeAddInput nid vid =
        (g.updateNode nid (fun m => { m with inputs := m.inputs ++ [vid] })).updateValue
          vid (fun v => v.addConsumer nid) := by
        simp only [Graph.nodeAddInput, hn, if_neg hmemi]
      have h2 : ((g.updateNode nid (fun m =>
          { m with inputs := m.inputs ++ [vid] })).updateValue
          vid (fun v => v.addConsumer nid)).findNode? nid =
          some { n with inputs := n.inputs ++ [vid] } := by
        rw [findNode?_updateValue]
        exact findNode?_updateNode_self g nid
          (fun m => { m with inputs := m.inputs ++ [vid] }) n (fun m => rfl) hn
      rw [h1]
      simp only [Graph.nodeAddInput, h2]
      rw [if_pos (by simp)]

/-- Witness for C10 on a concrete one-node graph: re-adding input 5 to node
0 changes nothing, the resulting input list is duplicate-free, and adding
the same value twice equals adding it once. -/
theorem addInput_addConsumer_dedup_witness :
    ({ nodes := [{ id := 0, opType := "Add", inputs := [5] }],
        values := [{ id := 5 }] } : Graph).nodeAddInput 0 5 =
      { nodes := [{ id := 0, opType := "Add", inputs := [5] }],
        values := [{ id := 5 }] } :=
  (addInput_addConsumer_dedup
      { nodes := [{ id := 0, opType := "Add", inputs := [5] }],
        values := [{ id := 5 }] }
      { id := 0, opType := "Add", inputs := [5] } { id := 5 } 0 5
      (by rfl)).2.1 (by simp)

/-- Initial in-degree of a node, from Graph::TopologicalSort
(src/core/graph.cpp lines 255-265): the number of inputs that have a
producer. -/
def Graph.initInDegree (g : Graph) (n : Node) : Int :=
  ((n.inputs.filter (fun vid => (g.producerOf vid).isSome)).length : Int)

/-- The in-degree map at the start of the sort.  The C++ unordered_map is
keyed by node pointer with entries for all graph nodes; a missing key read
through operator[] value-initializes to 0, so the embedding is the total
function that gives each node its initial in-degree and every other id 0. -/
def Graph.degZero (g : Graph) (nid : Int) : Int :=
  match g.findNode? nid with
  | none => 0
  | some n => g.initInDegree n

/-- The consumer ids reached from the outputs of a node, in the order the
nested loops of lines 280-287 of src/core/graph.cpp visit them. -/
def Graph.outConsumers (g : Graph) (nid : Int) : List Int :=
  match g.findNode? nid with
  | none => []
  | some n => n.outputs.flatMap (fun vid => g.consumersOf vid)

/-- The inner decrement loop of Graph::TopologicalSort (lines 280-287):
for each consumer in the list, decrement its in-degree and enqueue it when
the decremented value is exactly 0. -/
def kahnProcess : List Int → (Int → Int) → List Int → (Int → Int) × List Int
  | [], deg, queue => (deg, queue)
  | c :: rest, deg, queue =>
    let d := deg c - 1
    let degNext : Int → Int := fun m => if m == c then d else deg m
    let queueNext := if d == 0 then queue ++ [c] else queue
    kahnProcess rest degNext queueNext

/-- The main while loop of Graph::TopologicalSort (lines 275-288): pop the
queue front, append it to the sorted list and run the decrement loop.  The
C++ loop runs until the queue is empty; every node is enqueued at most once
(the in-degree of a node strictly decreases, so it passes through 0 at most
once), so the number of pops never exceeds the number of nodes and the fuel
argument nodes.length makes the embedding total without cutting the loop
short. -/
def kahnLoop (g : Graph) : Nat → (Int → Int) → List Int → List Int → List Int
  | 0, _, _, sorted => sorted
  | _ + 1, deg, [], sorted => (fun _ => sorted) deg
  | fuel + 1, deg, m :: rest, sorted =>
    let step := kahnProcess (g.outConsumers m) deg rest
    kahnLoop g fuel step.1 step.2 (sorted ++ [m])

/-- Graph::TopologicalSort from src/core/graph.cpp lines 251-291 (Kahn):
compute in-degrees by producer edges, seed the queue with the in-degree-0
nodes in arena order, then repeatedly pop, emit and decrement consumers.
The result is the list of emitted node ids. -/
def Graph.topologicalSort (g : Graph) : List Int :=
  let queueZero := ((g.nodes.filter (fun n => g.degZero n.id == 0)).map (fun n => n.id))
  kahnLoop g g.nodes.length g.degZero queueZero []

/-- Graph::Validate from src/core/graph.cpp lines 293-397, as acceptance:
check 1 (every node input has a producer, or is a graph input, or is an
initializer with a bound Tensor), check 3 (the graph has inputs and
outputs), check 4 (node and value ids are unique), check 5 (graph input and
output values are in the arena) and check 6 (the topological sort emits as
many nodes as the graph has).  Check 2 of the source only computes a
warning and rejects nothing. -/
def Graph.validate (g : Graph) : Bool :=
  (g.nodes.all fun n => n.inputs.all fun vid =>
    (g.producerOf vid).isSome || vid ∈ g.inputs || (g.tensorOf vid).isSome) &&
  (!g.inputs.isEmpty && !g.outputs.isEmpty) &&
  (decide (g.nodes.map (fun n => n.id)).Nodup &&
    decide (g.values.map (fun v => v.id)).Nodup) &&
  ((g.inputs.all fun vid => g.values.any fun v => v.id == vid) &&
    (g.outputs.all fun vid => g.values.any fun v => v.id == vid)) &&
  (g.topologicalSort.length == g.nodes.length)

/-- DeadCodeEliminationPass::Run from src/optimizers/optimizer.cpp lines
105-133: collect, against the state of the graph at entry, every node that
has outputs none of which is consumed or is a graph output, then remove the
collected nodes. -/
def deadCodeEliminationRun (g : Graph) : Graph :=
  let toRemove := g.nodes.filter fun n =>
    !(n.outputs.any fun vid =>
        !(g.consumersOf vid).isEmpty || vid ∈ g.outputs) &&
    !n.outputs.isEmpty
  toRemove.foldl (fun h n => h.removeNode n.id) g

/-- The chain graph for the C7 counterexample: value 10 is the graph input,
node 0 maps it to value 11, node 1 maps value 11 to value 12, node 2 maps
value 10 to value 13; value 13 is the only graph output.  Node 1 is dead
(value 12 is neither consumed nor a graph output); node 0 only feeds node
1, so it becomes dead once node 1 is removed. -/
def dceChainGraph : Graph :=
  { nodes :=
      [ { id := 0, opType := "Relu", inputs := [10], outputs := [11] }
      , { id := 1, opType := "Relu", inputs := [11], outputs := [12] }
      , { id := 2, opType := "Relu", inputs := [10], outputs := [13] } ]
    values :=
      [ { id := 10, consumers := [0, 2] }
      , { id := 11, producer := some 0, consumers := [1] }
      , { id := 12, producer := some 1 }
      , { id := 13, producer := some 2 } ]
    inputs := [10]
    outputs := [13]
    nextNodeId := 3
    nextValueId := 14 }

/-- Counterexample for C7: on the chain graph, one run of
DeadCodeEliminationPass removes only node 1, and a second run removes node
0 as well, so running the pass twice does not produce the same graph as
running it once: the pass is not idempotent and a single run does not
iterate to a fixed point. -/
theorem dce_not_idempotent :
    deadCodeEliminationRun (deadCodeEliminationRun dceChainGraph) ≠
      deadCodeEliminationRun dceChainGraph ∧
    ((deadCodeEliminationRun dceChainGraph).nodes.map (fun n => n.id) = [0, 2]) ∧
    ((deadCodeEliminationRun (deadCodeEliminationRun dceChainGraph)).nodes.map
      (fun n => n.id) = [2]) := by
  refine ⟨by decide, by decide, by decide⟩

/-- The node id list of a graph. -/
def Graph.nodeIds (g : Graph) : List Int := g.nodes.map (fun n => n.id)

/-- Number of decrement events the processing of node mid sends to node cid:
one per (output value of mid, consumer entry cid of that value) pair. -/
def Graph.edgesTo (g : Graph) (mid cid : Int) : Nat := (g.outConsumers mid).count cid

/-- Total decrements sent to cid by processing every node in the list S. -/
def Graph.decTo (g : Graph) (S : List Int) (cid : Int) : Nat :=
  (S.map (fun mid => g.edgesTo mid cid)).sum

/-- Total decrements cid can ever receive (processing every graph node). -/
def Graph.totalEdgesTo (g : Graph) (cid : Int) : Nat := g.decTo g.nodeIds cid

/-- Well-formedness of the pointer structure, the state every Graph built
and maintained through the source API (AddNode, AddValue, Node::AddInput,
Node::AddOutput, RemoveNode, RemoveValue) satisfies, and the invariants
stated in the data-model section of the specification: ids are unique,
node input and output lists and value consumer lists are duplicate-free
(AddInput, AddOutput, AddConsumer all deduplicate), input, output and
consumer references resolve inside the arena, consumer lists mirror input
lists, and producer fields mirror output lists (a node output has exactly
one producer). -/
structure Graph.WF (g : Graph) : Prop where
  nodesNodup : (g.nodes.map (fun n => n.id)).Nodup
  valuesNodup : (g.values.map (fun v => v.id)).Nodup
  inputsExist : ∀ n ∈ g.nodes, ∀ vid ∈ n.inputs, ∃ v ∈ g.values, v.id = vid
  outputsExist : ∀ n ∈ g.nodes, ∀ vid ∈ n.outputs, ∃ v ∈ g.values, v.id = vid
  nodeInputsNodup : ∀ n ∈ g.nodes, n.inputs.Nodup
  nodeOutputsNodup : ∀ n ∈ g.nodes, n.outputs.Nodup
  consumersNodup : ∀ v ∈ g.values, v.consumers.Nodup
  consumerIsNode : ∀ v ∈ g.values, ∀ nid ∈ v.consumers,
    ∃ n ∈ g.nodes, n.id = nid ∧ v.id ∈ n.inputs
  inputHasConsumer : ∀ n ∈ g.nodes, ∀ vid ∈ n.inputs,
    ∀ v ∈ g.values, v.id = vid → n.id ∈ v.consumers
  producerIsNode : ∀ v ∈ g.values, ∀ pid, v.producer = some pid →
    ∃ n ∈ g.nodes, n.id = pid ∧ v.id ∈ n.outputs
  outputHasProducer : ∀ n ∈ g.nodes, ∀ vid ∈ n.outputs,
    ∀ v ∈ g.values, v.id = vid → v.producer = some n.id

/-- Finding by key in a list whose keys are duplicate-free returns the
member itself. -/
theorem find?_eq_of_mem_nodup {α : Type} (key : α → Int) (l : List α) (a : α)
    (hnd : (l.map key).Nodup) (ha : a ∈ l) :
    l.find? (fun x => key x == key a) = some a := by
  induction l with
  | nil => cases ha
  | cons x xs ih =>
    rcases List.mem_cons.mp ha with rfl | hmem
    · rw [List.find?_cons_of_pos _ (by simp)]
    · have hx : key x ≠ key a := by
        intro he
        have : key a ∈ xs.map key := List.mem_map.mpr ⟨a, hmem, rfl⟩
        rw [← he] at this
        exact (List.nodup_cons.mp (by simpa using hnd)).1 this
      rw [List.find?_cons_of_neg _ (by simpa using hx)]
      exact ih (List.nodup_cons.mp (by simpa using hnd)).2 hmem

/-- Two members of a list with duplicate-free keys and the same key are the
same member. -/
theorem mem_key_unique {α : Type} (key : α → Int) (l : List α)
    (hnd : (l.map key).Nodup) (a b : α) (ha : a ∈ l) (hb : b ∈ l)
    (hk : key a = key b) : a = b :=
  List.inj_on_of_nodup_map hnd ha hb hk

/-- Looking a node up by the id of a member returns that member. -/
theorem findNode?_of_mem (g : Graph) (n : Node)
    (hnd : (g.nodes.map (fun n => n.id)).Nodup) (hn : n ∈ g.nodes) :
    g.findNode? n.id = some n := by
  rw [Graph.findNode?]
  exact find?_eq_of_mem_nodup (fun m => m.id) g.nodes n hnd hn

/-- Looking a value up by the id of a member returns that member. -/
theorem findValue?_of_mem (g : Graph) (v : Value)
    (hnd : (g.values.map (fun v => v.id)).Nodup) (hv : v ∈ g.values) :
    g.findValue? v.id = some v := by
  rw [Graph.findValue?]
  exact find?_eq_of_mem_nodup (fun w => w.id) g.values v hnd hv

/-- A successful find? returns a member satisfying the predicate. -/
theorem findNode?_some_mem (g : Graph) (nid : Int) (n : Node)
    (h : g.findNode? nid = some n) : n ∈ g.nodes ∧ n.id = nid := by
  refine ⟨List.mem_of_find?_eq_some h, ?_⟩
  have := List.find?_some h
  simpa using this

/-- A successful value find? returns a member with the looked-up id. -/
theorem findValue?_some_mem (g : Graph) (vid : Int) (v : Value)
    (h : g.findValue? vid = some v) : v ∈ g.values ∧ v.id = vid := by
  refine ⟨List.mem_of_find?_eq_some h, ?_⟩
  have := List.find?_some h
  simpa using this

/-- Counting over a flatMap adds up the per-piece counts. -/
theorem count_flatMap_sum {α : Type} (l : List α) (f : α → List Int) (a : Int) :
    ((l.flatMap f).count a) = (l.map (fun x => (f x).count a)).sum := by
  induction l with
  | nil => rfl
  | cons x xs ih => simp [List.flatMap_cons, List.count_append, ih]

/-- Summing an indicator over a list counts the matching elements. -/
theorem sum_indicator_eq_length_filter {α : Type} (l : List α) (p : α → Bool) :
    (l.map (fun x => if p x then (1 : Nat) else 0)).sum = (l.filter p).length := by
  induction l with
  | nil => rfl
  | cons x xs ih =>
    by_cases hx : p x
    · simp [hx, ih, List.filter_cons, Nat.add_comm]
    · simp [hx, ih, List.filter_cons]

/-- Summing a mapped flatMap groups as the sum of per-piece sums. -/
theorem sum_map_flatMap {α : Type} (l : List α) (f : α → List Int)
    (cnt : Int → Nat) :
    ((l.flatMap f).map cnt).sum = (l.map (fun n => ((f n).map cnt).sum)).sum := by
  induction l with
  | nil => rfl
  | cons x xs ih => simp [List.flatMap_cons, ih]

/-- Every consumer reached from the outputs of a node is itself a node of
the graph (well-formedness routes it through the consumer list of an arena
value, whose entries are node ids). -/
theorem outConsumers_mem_nodeIds (g : Graph) (hwf : g.WF) (mid x : Int)
    (hx : x ∈ g.outConsumers mid) : x ∈ g.nodeIds := by
  rw [Graph.outConsumers] at hx
  cases hfind : g.findNode? mid with
  | none => rw [hfind] at hx; cases hx
  | some n =>
    rw [hfind] at hx
    obtain ⟨vid, hvid, hcons⟩ := List.mem_flatMap.mp hx
    rw [Graph.consumersOf] at hcons
    cases hfv : g.findValue? vid with
    | none => rw [hfv] at hcons; cases hcons
    | some v =>
      rw [hfv] at hcons
      obtain ⟨hvmem, _⟩ := findValue?_some_mem g vid v hfv
      obtain ⟨m, hmmem, hmid, _⟩ := hwf.consumerIsNode v hvmem x hcons
      exact List.mem_map.mpr ⟨m, hmmem, hmid⟩

/-- The initial in-degree of a node c counts exactly the arena values that
have a producer and list c as a consumer. -/
theorem initInDegree_eq (g : Graph) (hwf : g.WF) (c : Node) (hc : c ∈ g.nodes) :
    g.initInDegree c = ((g.values.filter
      (fun v => v.producer.isSome && decide (c.id ∈ v.consumers))).length : Int) := by
  rw [Graph.initInDegree]
  congr 1
  have hperm : (c.inputs.filter (fun vid => (g.producerOf vid).isSome)).Perm
      ((g.values.filter (fun v => v.producer.isSome &&
        decide (c.id ∈ v.consumers))).map (fun v => v.id)) := by
    apply List.perm_of_nodup_nodup_toFinset_eq
    · exact (hwf.nodeInputsNodup c hc).filter _
    · exact hwf.valuesNodup.sublist ((List.filter_sublist _).map _)
    · ext x
      simp only [List.mem_toFinset]
      constructor
      · intro hx
        obtain ⟨hxin, hP⟩ := List.mem_filter.mp hx
        rw [Graph.producerOf] at hP
        cases hfv : g.findValue? x with
        | none => rw [hfv] at hP; simp at hP
        | some v =>
          rw [hfv] at hP
          obtain ⟨hvmem, hvid⟩ := findValue?_some_mem g x v hfv
          have hcons : c.id ∈ v.consumers :=
            hwf.inputHasConsumer c hc x hxin v hvmem hvid
          refine List.mem_map.mpr ⟨v, List.mem_filter.mpr ⟨hvmem, ?_⟩, hvid⟩
          simp [hP, hcons]
      · intro hx
        obtain ⟨v, hvf, hvid⟩ := List.mem_map.mp hx
        obtain ⟨hvmem, hQ⟩ := List.mem_filter.mp hvf
        obtain ⟨hPs, hCs⟩ := Bool.and_eq_true_iff.mp hQ
        have hcons : c.id ∈ v.consumers := of_decide_eq_true hCs
        obtain ⟨n, hnmem, hnid, hvin⟩ := hwf.consumerIsNode v hvmem c.id hcons
        have hnc : n = c :=
          mem_key_unique (fun n => n.id) g.nodes hwf.nodesNodup n c hnmem hc hnid
        subst hnc
        refine List.mem_filter.mpr ⟨hvid ▸ hvin, ?_⟩
        rw [Graph.producerOf, ← hvid, findValue?_of_mem g v hwf.valuesNodup hvmem]
        exact hPs
  calc (c.inputs.filter (fun vid => (g.producerOf vid).isSome)).length
      = ((g.values.filter (fun v => v.producer.isSome &&
          decide (c.id ∈ v.consumers))).map (fun v => v.id)).length := hperm.length_eq
    _ = _ := List.length_map _ _

/-- The total number of decrement events any node id can receive counts the
same set of values: those with a producer listing it as consumer. -/
theorem totalEdgesTo_eq (g : Graph) (hwf : g.WF) (cid : Int) :
    g.totalEdgesTo cid = (g.values.filter
      (fun v => v.producer.isSome && decide (cid ∈ v.consumers))).length := by
  rw [Graph.totalEdgesTo, Graph.decTo, Graph.nodeIds, List.map_map]
  have hstep : ∀ n ∈ g.nodes, ((fun mid => g.edgesTo mid cid) ∘ fun n => n.id) n =
      ((n.outputs.map (fun vid => (g.consumersOf vid).count cid)).sum) := by
    intro n hn
    simp only [Function.comp]
    rw [Graph.edgesTo, Graph.outConsumers, findNode?_of_mem g n hwf.nodesNodup hn]
    exact count_flatMap_sum n.outputs _ cid
  rw [List.map_congr_left hstep]
  have hgrp : (g.nodes.map (fun n =>
      ((n.outputs.map (fun vid => (g.consumersOf vid).count cid)).sum))).sum =
      (((g.nodes.flatMap (fun n => n.outputs)).map
        (fun vid => (g.consumersOf vid).count cid)).sum) :=
    (sum_map_flatMap g.nodes (fun n => n.outputs) _).symm
  rw [hgrp]
  have hperm : (g.nodes.flatMap (fun n => n.outputs)).Perm
      ((g.values.filter (fun v => v.producer.isSome)).map (fun v => v.id)) := by
    apply List.perm_of_nodup_nodup_toFinset_eq
    · rw [List.nodup_flatMap]
      constructor
      · intro n hn
        exact hwf.nodeOutputsNodup n hn
      · have hpw : g.nodes.Pairwise (fun a b => a.id ≠ b.id) := by
          have := hwf.nodesNodup
          rw [List.Nodup, List.pairwise_map] at this
          exact this
        refine List.Pairwise.imp_of_mem ?_ hpw
        intro a b hamem hbmem hne vid hva hvb
        obtain ⟨v, hvmem, hvid⟩ := hwf.outputsExist a hamem vid hva
        have hp1 : v.producer = some a.id := hwf.outputHasProducer a hamem vid hva v hvmem hvid
        have hp2 : v.producer = some b.id := hwf.outputHasProducer b hbmem vid hvb v hvmem hvid
        rw [hp1] at hp2
        exact hne (by injection hp2)
    · exact hwf.valuesNodup.sublist ((List.filter_sublist _).map _)
    · ext x
      simp only [List.mem_toFinset]
      constructor
      · intro hx
        obtain ⟨n, hn, hxout⟩ := List.mem_flatMap.mp hx
        obtain ⟨v, hvmem, hvid⟩ := hwf.outputsExist n hn x hxout
        have hp : v.producer = some n.id := hwf.outputHasProducer n hn x hxout v hvmem hvid
        refine List.mem_map.mpr ⟨v, List.mem_filter.mpr ⟨hvmem, ?_⟩, hvid⟩
        simp [hp]
      · intro hx
        obtain ⟨v, hvf, hvid⟩ := List.mem_map.mp hx
        obtain ⟨hvmem, hPs⟩ := List.mem_filter.mp hvf
        obtain ⟨pid, hpid⟩ := Option.isSome_iff_exists.mp hPs
        obtain ⟨n, hnmem, _, hvout⟩ := hwf.producerIsNode v hvmem pid hpid
        exact List.mem_flatMap.mpr ⟨n, hnmem, hvid ▸ hvout⟩
  rw [(hperm.map _).sum_eq]
  have hres : ∀ v ∈ g.values.filter (fun v => v.producer.isSome),
      ((fun vid => (g.consumersOf vid).count cid) ∘ fun v => v.id) v =
        (if decide (cid ∈ v.consumers) then (1 : Nat) else 0) := by
    intro v hv
    obtain ⟨hvmem, _⟩ := List.mem_filter.mp hv
    simp only [Function.comp]
    rw [Graph.consumersOf, findValue?_of_mem g v hwf.valuesNodup hvmem]
    by_cases hmem : cid ∈ v.consumers
    · rw [if_pos (by simpa using hmem)]
      exact List.count_eq_one_of_mem (hwf.consumersNodup v hvmem) hmem
    · rw [if_neg (by simpa using hmem)]
      exact List.count_eq_zero.mpr hmem
  rw [List.map_map, List.map_congr_left hres,
    sum_indicator_eq_length_filter (g.values.filter (fun v => v.producer.isSome))
      (fun v => decide (cid ∈ v.consumers)),
    List.filter_filter]
  congr 1
  exact List.filter_congr (fun v _ => Bool.and_comm _ _)

/-- The in-degree map at a node id equals (as an integer) the total number
of decrement events that id can receive. -/
theorem degZero_eq_total (g : Graph) (hwf : g.WF) (c : Node) (hc : c ∈ g.nodes) :
    g.degZero c.id = (g.totalEdgesTo c.id : Int) := by
  simp only [Graph.degZero, findNode?_of_mem g c hwf.nodesNodup hc]
  rw [initInDegree_eq g hwf c hc, totalEdgesTo_eq g hwf c.id]

/-- The initial in-degree map is nonnegative everywhere. -/
theorem degZero_nonneg (g : Graph) (x : Int) : 0 ≤ g.degZero x := by
  rw [Graph.degZero]
  cases g.findNode? x with
  | none => exact le_refl 0
  | some n => exact Int.natCast_nonneg _

/-- Ids that are not node ids have in-degree 0. -/
theorem degZero_of_not_node (g : Graph) (x : Int) (h : x ∉ g.nodeIds) :
    g.degZero x = 0 := by
  rw [Graph.degZero]
  cases hfind : g.findNode? x with
  | none => rfl
  | some n =>
    obtain ⟨hmem, hid⟩ := findNode?_some_mem g x n hfind
    exact absurd (List.mem_map.mpr ⟨n, hmem, hid⟩) h

/-- A producer edge into a node contributes at least one decrement event
from the producer, and the producer is a graph node. -/
theorem edgesTo_pos (g : Graph) (hwf : g.WF) (c : Node) (hc : c ∈ g.nodes)
    (vid : Int) (hvid : vid ∈ c.inputs) (pid : Int)
    (hp : g.producerOf vid = some pid) :
    1 ≤ g.edgesTo pid c.id ∧ pid ∈ g.nodeIds := by
  rw [Graph.producerOf] at hp
  cases hfv : g.findValue? vid with
  | none => rw [hfv] at hp; cases hp
  | some v =>
    rw [hfv] at hp
    obtain ⟨hvmem, hvid2⟩ := findValue?_some_mem g vid v hfv
    obtain ⟨p, hpmem, hpid, hvout⟩ := hwf.producerIsNode v hvmem pid hp
    have hpnode : pid ∈ g.nodeIds := List.mem_map.mpr ⟨p, hpmem, hpid⟩
    refine ⟨?_, hpnode⟩
    rw [Graph.edgesTo, Graph.outConsumers, ← hpid,
      findNode?_of_mem g p hwf.nodesNodup hpmem]
    have hcin : c.id ∈ g.consumersOf v.id := by
      rw [Graph.consumersOf, findValue?_of_mem g v hwf.valuesNodup hvmem]
      exact hwf.inputHasConsumer c hc vid hvid v hvmem hvid2
    have hmem : c.id ∈ p.outputs.flatMap (fun w => g.consumersOf w) :=
      List.mem_flatMap.mpr ⟨v.id, hvout, hcin⟩
    exact Nat.one_le_iff_ne_zero.mpr (fun h0 => (List.count_eq_zero.mp h0) hmem)

/-- decTo distributes over list append. -/
theorem decTo_append (g : Graph) (S T : List Int) (cid : Int) :
    g.decTo (S ++ T) cid = g.decTo S cid + g.decTo T cid := by
  simp [Graph.decTo]

/-- decTo of a singleton is the edge count. -/
theorem decTo_singleton (g : Graph) (m cid : Int) :
    g.decTo [m] cid = g.edgesTo m cid := by
  simp [Graph.decTo]

/-- The decrements received from a duplicate-free set of processed nodes
never exceed the total. -/
theorem decTo_le_total (g : Graph) (S : List Int) (cid : Int)
    (hnd : S.Nodup) (hsub : ∀ x ∈ S, x ∈ g.nodeIds) :
    g.decTo S cid ≤ g.totalEdgesTo cid := by
  obtain ⟨l, hperm, hsl⟩ := hnd.subperm hsub
  rw [Graph.decTo, Graph.totalEdgesTo, Graph.decTo]
  calc (S.map (fun mid => g.edgesTo mid cid)).sum
      = (l.map (fun mid => g.edgesTo mid cid)).sum := ((hperm.map _).sum_eq).symm
    _ ≤ (g.nodeIds.map (fun mid => g.edgesTo mid cid)).sum :=
        (hsl.map _).sum_le_sum (by intro a _; exact Nat.zero_le a)

/-- With one more node available outside the processed set, its edges fit
below the total as well. -/
theorem decTo_add_edge_le_total (g : Graph) (S : List Int) (cid pid : Int)
    (hnd : S.Nodup) (hsub : ∀ x ∈ S, x ∈ g.nodeIds)
    (hpid : pid ∈ g.nodeIds) (hps : pid ∉ S) :
    g.decTo S cid + g.edgesTo pid cid ≤ g.totalEdgesTo cid := by
  have h := decTo_le_total g (pid :: S) cid (List.nodup_cons.mpr ⟨hps, hnd⟩)
    (by intro x hx; rcases List.mem_cons.mp hx with rfl | hx;
        exact hpid; exact hsub x hx)
  rw [show g.decTo (pid :: S) cid = g.edgesTo pid cid + g.decTo S cid by
    simp [Graph.decTo]] at h
  omega

/-- Effect of the decrement loop on the degree map: each id loses one per
occurrence in the processed consumer list. -/
theorem kahnProcess_deg (cs : List Int) :
    ∀ (deg : Int → Int) (queue : List Int) (x : Int),
    (kahnProcess cs deg queue).1 x = deg x - (cs.count x : Int) := by
  induction cs with
  | nil =>
    intro deg queue x
    simp [kahnProcess]
  | cons c rest ih =>
    intro deg queue x
    rw [kahnProcess, ih]
    by_cases hx : x = c
    · subst hx
      rw [if_pos (by simp), List.count_cons_self]
      push_cast
      ring
    · rw [if_neg (by simpa using hx), List.count_cons_of_ne hx]

/-- Membership in the queue after the decrement loop: the old entries stay,
and an id is newly enqueued exactly when its degree passes through zero,
that is when its degree is positive but does not exceed its number of
occurrences in the consumer list. -/
theorem kahnProcess_mem (cs : List Int) :
    ∀ (deg : Int → Int) (queue : List Int) (x : Int),
    (x ∈ (kahnProcess cs deg queue).2 ↔
      x ∈ queue ∨ (1 ≤ deg x ∧ deg x ≤ (cs.count x : Int))) := by
  induction cs with
  | nil =>
    intro deg queue x
    simp only [kahnProcess, List.count_nil, Nat.cast_zero]
    constructor
    · exact fun h => Or.inl h
    · rintro (h | ⟨h1, h2⟩)
      · exact h
      · omega
  | cons c rest ih =>
    intro deg queue x
    rw [kahnProcess]
    rw [ih]
    by_cases hx : x = c
    · subst hx
      rw [if_pos (show ((x == x) = true) by simp), List.count_cons_self]
      by_cases hpush : deg x - 1 = 0
      · rw [if_pos (show ((deg x - 1 == 0) = true) by simpa using hpush)]
        simp only [List.mem_append, List.mem_singleton]
        constructor
        · intro _
          right
          push_cast
          omega
        · intro _
          left
          right
          trivial
      · rw [if_neg (show ¬ ((deg x - 1 == 0) = true) by simpa using hpush)]
        push_cast
        constructor
        · rintro (h | ⟨h1, h2⟩)
          · exact Or.inl h
          · exact Or.inr (by omega)
        · rintro (h | ⟨h1, h2⟩)
          · exact Or.inl h
          · exact Or.inr (by omega)
    · rw [List.count_cons_of_ne hx, if_neg (show ¬ ((x == c) = true) by simpa using hx)]
      by_cases hpush : deg c - 1 = 0
      · rw [if_pos (show ((deg c - 1 == 0) = true) by simpa using hpush)]
        simp only [List.mem_append, List.mem_singleton]
        constructor
        · rintro ((h | h) | h2)
          · exact Or.inl h
          · exact absurd h hx
          · exact Or.inr h2
        · rintro (h | h2)
          · exact Or.inl (Or.inl h)
          · exact Or.inr h2
      · rw [if_neg (show ¬ ((deg c - 1 == 0) = true) by simpa using hpush)]

/-- The queue after the decrement loop is duplicate-free, provided it was
and its entries all had nonpositive degree: a pushed id has positive degree,
so it cannot already be queued, and after its push its degree is zero, so it
cannot be pushed twice. -/
theorem kahnProcess_nodup (cs : List Int) :
    ∀ (deg : Int → Int) (queue : List Int),
    queue.Nodup → (∀ x ∈ queue, deg x ≤ 0) →
    (kahnProcess cs deg queue).2.Nodup := by
  induction cs with
  | nil =>
    intro deg queue hq _
    simpa [kahnProcess] using hq
  | cons c rest ih =>
    intro deg queue hq hqd
    rw [kahnProcess]
    by_cases hpush : deg c - 1 = 0
    · rw [if_pos (show ((deg c - 1 == 0) = true) by simpa using hpush)]
      apply ih
      · have hcq : c ∉ queue := by
          intro hc
          have := hqd c hc
          omega
        simp [List.nodup_append, hq, hcq]
      · intro x hx
        rcases List.mem_append.mp hx with hx | hx
        · by_cases hxc : x = c
          · subst hxc
            rw [if_pos (show ((x == x) = true) by simp)]
            omega
          · rw [if_neg (show ¬ ((x == c) = true) by simpa using hxc)]
            exact hqd x hx
        · have hxc : x = c := by simpa using hx
          subst hxc
          rw [if_pos (show ((x == x) = true) by simp)]
          omega
    · rw [if_neg (show ¬ ((deg c - 1 == 0) = true) by simpa using hpush)]
      apply ih _ _ hq
      intro x hx
      by_cases hxc : x = c
      · subst hxc
        rw [if_pos (show ((x == x) = true) by simp)]
        have := hqd x hx
        omega
      · rw [if_neg (show ¬ ((x == c) = true) by simpa using hxc)]
        exact hqd x hx

/-- The invariant of the Kahn loop of Graph::TopologicalSort, relating the
degree map, the pending queue and the emitted list: both live inside the
node ids without repetition, the degree of an id is its initial degree
minus the decrements sent by the emitted nodes, ids in the structure have
nonpositive degree and the others positive degree, producers of queued
nodes are already emitted, and producers of emitted nodes are emitted
earlier. -/
structure KahnInv (g : Graph) (deg : Int → Int) (queue sorted : List Int) : Prop where
  sortedSub : ∀ x ∈ sorted, x ∈ g.nodeIds
  queueSub : ∀ x ∈ queue, x ∈ g.nodeIds
  nodup : (sorted ++ queue).Nodup
  degEq : ∀ x, deg x = g.degZero x - (g.decTo sorted x : Int)
  degIn : ∀ x ∈ sorted ++ queue, deg x ≤ 0
  degOut : ∀ x ∈ g.nodeIds, x ∉ sorted ++ queue → 1 ≤ deg x
  queueProd : ∀ c ∈ queue, ∀ n ∈ g.nodes, n.id = c →
    ∀ vid ∈ n.inputs, ∀ pid, g.producerOf vid = some pid → pid ∈ sorted
  sortedPrec : ∀ x ∈ sorted, ∀ n ∈ g.nodes, n.id = x →
    ∀ vid ∈ n.inputs, ∀ pid, g.producerOf vid = some pid →
      pid ∈ sorted ∧ sorted.indexOf pid < sorted.indexOf x

/-- One step of the Kahn loop preserves the invariant: the queue front m is
emitted and the decrement loop runs over its out-consumers. -/
theorem kahn_step (g : Graph) (hwf : g.WF) (deg : Int → Int) (m : Int)
    (rest sorted : List Int) (inv : KahnInv g deg (m :: rest) sorted) :
    KahnInv g (kahnProcess (g.outConsumers m) deg rest).1
      (kahnProcess (g.outConsumers m) deg rest).2 (sorted ++ [m]) := by
  have hm_node : m ∈ g.nodeIds := inv.queueSub m (List.mem_cons_self m rest)
  have hnd := inv.nodup
  rw [List.nodup_append] at hnd
  obtain ⟨hnds, hndq, hdisj⟩ := hnd
  have hmns : m ∉ sorted := fun hms => hdisj hms (List.mem_cons_self m rest)
  have hrest_nodup : rest.Nodup := (List.nodup_cons.mp hndq).2
  have hmnr : m ∉ rest := (List.nodup_cons.mp hndq).1
  have hrest_deg : ∀ x ∈ rest, deg x ≤ 0 := fun x hx =>
    inv.degIn x (List.mem_append.mpr (Or.inr (List.mem_cons_of_mem m hx)))
  have hdeg : ∀ x, (kahnProcess (g.outConsumers m) deg rest).1 x =
      deg x - ((g.outConsumers m).count x : Int) :=
    kahnProcess_deg (g.outConsumers m) deg rest
  have hQmem : ∀ x, x ∈ (kahnProcess (g.outConsumers m) deg rest).2 ↔
      x ∈ rest ∨ (1 ≤ deg x ∧ deg x ≤ ((g.outConsumers m).count x : Int)) :=
    kahnProcess_mem (g.outConsumers m) deg rest
  have hQnodup : (kahnProcess (g.outConsumers m) deg rest).2.Nodup :=
    kahnProcess_nodup (g.outConsumers m) deg rest hrest_nodup hrest_deg
  have hsm_nodup : (sorted ++ [m]).Nodup := by
    rw [List.nodup_append]
    refine ⟨hnds, List.nodup_singleton m, ?_⟩
    intro a ha ham
    rw [List.mem_singleton] at ham
    subst ham
    exact hmns ha
  have hsub_sm : ∀ x ∈ sorted ++ [m], x ∈ g.nodeIds := by
    intro x hx
    rcases List.mem_append.mp hx with hx | hx
    · exact inv.sortedSub x hx
    · rw [List.mem_singleton] at hx
      rw [hx]
      exact hm_node
  have hold_sub : ∀ x ∈ sorted ++ [m], x ∈ sorted ++ m :: rest := by
    intro x hx
    rcases List.mem_append.mp hx with hx | hx
    · exact List.mem_append.mpr (Or.inl hx)
    · rw [List.mem_singleton] at hx
      rw [hx]
      exact List.mem_append.mpr (Or.inr (List.mem_cons_self m rest))
  have hdegEq_new : ∀ x, (kahnProcess (g.outConsumers m) deg rest).1 x =
      g.degZero x - (g.decTo (sorted ++ [m]) x : Int) := by
    intro x
    rw [hdeg x, inv.degEq x, decTo_append, decTo_singleton]
    have : g.edgesTo m x = (g.outConsumers m).count x := rfl
    rw [this]
    push_cast
    ring
  have hpush_node : ∀ x, 1 ≤ deg x → deg x ≤ ((g.outConsumers m).count x : Int) →
      x ∈ g.nodeIds := by
    intro x h1 h2
    have hcast : (1 : Int) ≤ ((g.outConsumers m).count x : Int) := le_trans h1 h2
    have hcnt : 1 ≤ (g.outConsumers m).count x := by exact_mod_cast hcast
    have hmemcs : x ∈ g.outConsumers m := by
      by_contra hxcs
      rw [List.count_eq_zero.mpr hxcs] at hcnt
      omega
    exact outConsumers_mem_nodeIds g hwf m x hmemcs
  have hpushed_prod : ∀ c, (1 ≤ deg c ∧ deg c ≤ ((g.outConsumers m).count c : Int)) →
      ∀ n ∈ g.nodes, n.id = c → ∀ vid ∈ n.inputs, ∀ pid,
        g.producerOf vid = some pid → pid ∈ sorted ++ [m] := by
    rintro c ⟨h1, h2⟩ n hn hnc vid hvid pid hp
    subst hnc
    by_contra hnot
    obtain ⟨hedge, hpid_node⟩ := edgesTo_pos g hwf n hn vid hvid pid hp
    have htot := decTo_add_edge_le_total g (sorted ++ [m]) n.id pid
      hsm_nodup hsub_sm hpid_node hnot
    have hdegtot := degZero_eq_total g hwf n hn
    have hD : (kahnProcess (g.outConsumers m) deg rest).1 n.id ≤ 0 := by
      rw [hdeg n.id]
      omega
    have hD2 := hdegEq_new n.id
    rw [hdegtot] at hD2
    omega
  refine ⟨hsub_sm, ?_, ?_, hdegEq_new, ?_, ?_, ?_, ?_⟩
  · intro x hx
    rcases (hQmem x).mp hx with hx | ⟨h1, h2⟩
    · exact inv.queueSub x (List.mem_cons_of_mem m hx)
    · exact hpush_node x h1 h2
  · rw [List.nodup_append]
    refine ⟨hsm_nodup, hQnodup, ?_⟩
    intro a ha haq
    rcases (hQmem a).mp haq with har | ⟨h1, _⟩
    · rcases List.mem_append.mp ha with has | ham
      · exact hdisj has (List.mem_cons_of_mem m har)
      · rw [List.mem_singleton] at ham
        rw [ham] at har
        exact hmnr har
    · have := inv.degIn a (hold_sub a ha)
      omega
  · intro x hx
    rcases List.mem_append.mp hx with hx | hx
    · have := inv.degIn x (hold_sub x hx)
      have hc : (0 : Int) ≤ ((g.outConsumers m).count x : Int) := Int.natCast_nonneg _
      rw [hdeg x]
      omega
    · rcases (hQmem x).mp hx with hx | ⟨h1, h2⟩
      · have := inv.degIn x (List.mem_append.mpr (Or.inr (List.mem_cons_of_mem m hx)))
        have hc : (0 : Int) ≤ ((g.outConsumers m).count x : Int) := Int.natCast_nonneg _
        rw [hdeg x]
        omega
      · rw [hdeg x]
        omega
  · intro x hxn hxnot
    have hx_old : x ∉ sorted ++ m :: rest := by
      intro hx
      rcases List.mem_append.mp hx with hx | hx
      · exact hxnot (List.mem_append.mpr (Or.inl (List.mem_append.mpr (Or.inl hx))))
      · rcases List.mem_cons.mp hx with rfl | hx
        · exact hxnot (List.mem_append.mpr
            (Or.inl (List.mem_append.mpr (Or.inr (List.mem_singleton.mpr rfl)))))
        · exact hxnot (List.mem_append.mpr (Or.inr ((hQmem x).mpr (Or.inl hx))))
    have h1 : 1 ≤ deg x := inv.degOut x hxn hx_old
    have hnp : ¬ (1 ≤ deg x ∧ deg x ≤ ((g.outConsumers m).count x : Int)) := by
      intro hcontra
      exact hxnot (List.mem_append.mpr (Or.inr ((hQmem x).mpr (Or.inr hcontra))))
    rw [hdeg x]
    omega
  · intro c hc n hn hnc vid hvid pid hp
    rcases (hQmem c).mp hc with hcr | h12
    · exact List.mem_append.mpr
        (Or.inl (inv.queueProd c (List.mem_cons_of_mem m hcr) n hn hnc vid hvid pid hp))
    · exact hpushed_prod c h12 n hn hnc vid hvid pid hp
  · intro x hx n hn hnx vid hvid pid hp
    rcases List.mem_append.mp hx with hxs | hxm
    · obtain ⟨hps, hidx⟩ := inv.sortedPrec x hxs n hn hnx vid hvid pid hp
      refine ⟨List.mem_append.mpr (Or.inl hps), ?_⟩
      rw [List.indexOf_append_of_mem hps, List.indexOf_append_of_mem hxs]
      exact hidx
    · rw [List.mem_singleton] at hxm
      subst hxm
      have hps : pid ∈ sorted :=
        inv.queueProd x (List.mem_cons_self x rest) n hn hnx vid hvid pid hp
      refine ⟨List.mem_append.mpr (Or.inl hps), ?_⟩
      rw [List.indexOf_append_of_mem hps, List.indexOf_append_of_not_mem hmns]
      have hlt := List.indexOf_lt_length.mpr hps
      have hzero : List.indexOf x [x] = 0 := List.indexOf_cons_self x []
      omega

/-- The invariant holds at the start of the Kahn loop: nothing is emitted,
the queue holds exactly the nodes of initial in-degree 0 in arena order,
and the degree map is the initial one. -/
theorem kahnInv_init (g : Graph) (hwf : g.WF) :
    KahnInv g g.degZero
      ((g.nodes.filter (fun n => g.degZero n.id == 0)).map (fun n => n.id)) [] := by
  have hqmem : ∀ x, x ∈ ((g.nodes.filter (fun n => g.degZero n.id == 0)).map
      (fun n => n.id)) → ∃ n ∈ g.nodes, n.id = x ∧ g.degZero n.id = 0 := by
    intro x hx
    obtain ⟨n, hnf, hnx⟩ := List.mem_map.mp hx
    obtain ⟨hnmem, hdz⟩ := List.mem_filter.mp hnf
    exact ⟨n, hnmem, hnx, by simpa using hdz⟩
  refine ⟨?_, ?_, ?_, ?_, ?_, ?_, ?_, ?_⟩
  · intro x hx
    cases hx
  · intro x hx
    obtain ⟨n, hnmem, hnx, _⟩ := hqmem x hx
    exact List.mem_map.mpr ⟨n, hnmem, hnx⟩
  · rw [List.nil_append]
    exact hwf.nodesNodup.sublist ((List.filter_sublist _).map _)
  · intro x
    simp [Graph.decTo]
  · intro x hx
    rw [List.nil_append] at hx
    obtain ⟨n, _, hnx, hdz⟩ := hqmem x hx
    rw [← hnx, hdz]
  · intro x hxn hxq
    rw [List.nil_append] at hxq
    obtain ⟨n, hnmem, hnx⟩ := List.mem_map.mp hxn
    have hdz : ¬ (g.degZero n.id = 0) := by
      intro h0
      exact hxq (List.mem_map.mpr ⟨n, List.mem_filter.mpr ⟨hnmem, by simpa using h0⟩, hnx⟩)
    have hnn := degZero_nonneg g n.id
    rw [← hnx]
    omega
  · intro c hc n hn hnc vid hvid pid hp
    obtain ⟨n2, hn2mem, hn2c, hdz⟩ := hqmem c hc
    have hxx : n2 = n :=
      mem_key_unique (fun n => n.id) g.nodes hwf.nodesNodup n2 n hn2mem hn
        (by show n2.id = n.id; rw [hn2c, hnc])
    rw [hxx] at hdz
    exfalso
    have hdz2 : g.degZero n.id = g.initInDegree n := by
      simp only [Graph.degZero, findNode?_of_mem g n hwf.nodesNodup hn]
    have hmemf : vid ∈ n.inputs.filter (fun vid => (g.producerOf vid).isSome) :=
      List.mem_filter.mpr ⟨hvid, by rw [hp]; rfl⟩
    have hpos : 0 < (n.inputs.filter (fun vid => (g.producerOf vid).isSome)).length :=
      List.length_pos.mpr (List.ne_nil_of_mem hmemf)
    rw [hdz2, Graph.initInDegree] at hdz
    omega
  · intro x hx
    cases hx

/-- What the Kahn loop guarantees from any invariant state: the final
emitted list stays inside the node ids, has no duplicates, and producers of
emitted nodes are emitted strictly earlier. -/
theorem kahnLoop_props (g : Graph) (hwf : g.WF) :
    ∀ (fuel : Nat) (deg : Int → Int) (queue sorted : List Int),
    KahnInv g deg queue sorted →
    (∀ x ∈ kahnLoop g fuel deg queue sorted, x ∈ g.nodeIds) ∧
    (kahnLoop g fuel deg queue sorted).Nodup ∧
    (∀ x ∈ kahnLoop g fuel deg queue sorted, ∀ n ∈ g.nodes, n.id = x →
      ∀ vid ∈ n.inputs, ∀ pid, g.producerOf vid = some pid →
        pid ∈ kahnLoop g fuel deg queue sorted ∧
        (kahnLoop g fuel deg queue sorted).indexOf pid <
          (kahnLoop g fuel deg queue sorted).indexOf x) := by
  intro fuel
  induction fuel with
  | zero =>
    intro deg queue sorted inv
    simp only [kahnLoop]
    exact ⟨inv.sortedSub, (List.nodup_append.mp inv.nodup).1, inv.sortedPrec⟩
  | succ fuel ih =>
    intro deg queue sorted inv
    cases queue with
    | nil =>
      simp only [kahnLoop]
      exact ⟨inv.sortedSub, (List.nodup_append.mp inv.nodup).1, inv.sortedPrec⟩
    | cons m rest =>
      simp only [kahnLoop]
      exact ih _ _ _ (kahn_step g hwf deg m rest sorted inv)

/-- C1.  For every well-formed graph accepted by Graph::Validate,
Graph::TopologicalSort returns a permutation of all the nodes of the graph,
and in the returned order every node appears strictly after the producer
node (when one exists) of each of its input Values.  Well-formedness is the
pointer-structure consistency every graph built through the source API has
(see Graph.WF). -/
theorem topologicalSort_correct (g : Graph) (hwf : g.WF)
    (hv : g.validate = true) :
    g.topologicalSort.Perm (g.nodes.map (fun n => n.id)) ∧
    (∀ n ∈ g.nodes, ∀ vid ∈ n.inputs, ∀ pid,
      g.producerOf vid = some pid →
      g.topologicalSort.indexOf pid < g.topologicalSort.indexOf n.id) := by
  have hprops := kahnLoop_props g hwf g.nodes.length g.degZero
    ((g.nodes.filter (fun n => g.degZero n.id == 0)).map (fun n => n.id)) []
    (kahnInv_init g hwf)
  rw [show kahnLoop g g.nodes.length g.degZero
      ((g.nodes.filter (fun n => g.degZero n.id == 0)).map (fun n => n.id)) [] =
      g.topologicalSort from rfl] at hprops
  obtain ⟨hsub, hnodup, hprec⟩ := hprops
  have hlen : g.topologicalSort.length = g.nodes.length := by
    have hv2 := hv
    simp only [Graph.validate, Bool.and_eq_true, beq_iff_eq] at hv2
    exact hv2.2
  have hperm : g.topologicalSort.Perm (g.nodes.map (fun n => n.id)) := by
    apply List.Subperm.perm_of_length_le
    · exact hnodup.subperm (fun x hx => hsub x hx)
    · rw [hlen, List.length_map]
  refine ⟨hperm, ?_⟩
  intro n hn vid hvid pid hp
  have hmem : n.id ∈ g.topologicalSort :=
    hperm.mem_iff.mpr (List.mem_map.mpr ⟨n, hn, rfl⟩)
  exact (hprec n.id hmem n hn rfl vid hvid pid hp).2

/-- Witness graph for C1: one Relu node mapping the graph input value 10 to
the graph output value 11. -/
def topoWitnessGraph : Graph :=
  { nodes := [ { id := 0, opType := "Relu", inputs := [10], outputs := [11] } ]
    values := [ { id := 10, consumers := [0] }, { id := 11, producer := some 0 } ]
    inputs := [10]
    outputs := [11]
    nextNodeId := 1
    nextValueId := 12 }

/-- Witness for C1: the witness graph is well-formed and validates, and its
topological sort is a permutation of its node ids. -/
theorem topologicalSort_correct_witness :
    topoWitnessGraph.topologicalSort.Perm
      (topoWitnessGraph.nodes.map (fun n => n.id)) :=
  (topologicalSort_correct topoWitnessGraph
    ⟨by decide, by decide, by decide, by decide, by decide, by decide, by decide,
      by decide, by decide, by decide, by decide⟩ (by decide)).1

/-- OperatorFusionPass::CanFuseConvBNReLU from
src/optimizers/operator_fusion.cpp lines 108-121: check the three op types
and that the first output of conv is the first input of bn and the first
output of bn is the first input of relu.  The null-pointer guards of the
source do not arise in the embedding. -/
def canFuseConvBNReLU (conv bn relu : Node) : Bool :=
  if conv.opType != "Conv" then false
  else if bn.opType != "BatchNormalization" then false
  else if relu.opType != "Relu" then false
  else match conv.outputs, bn.inputs with
    | co :: _, bi :: _ =>
      if co != bi then false
      else match bn.outputs, relu.inputs with
        | bo :: _, ri :: _ => bo == ri
        | _, _ => false
    | _, _ => false

/-- OperatorFusionPass::CanFuseMatMulAdd from
src/optimizers/operator_fusion.cpp lines 123-134: check the op types, that
matmul has an output and add at least two inputs, and that the first matmul
output is one of the first two add inputs.  No condition on the consumer
list of the bridging value is checked. -/
def canFuseMatMulAdd (matmul add : Node) : Bool :=
  if matmul.opType != "MatMul" then false
  else if add.opType != "Add" then false
  else if matmul.outputs.isEmpty || add.inputs.length < 2 then false
  else
    matmul.outputs.headD 0 == add.inputs.getD 0 0 ||
      matmul.outputs.headD 0 == add.inputs.getD 1 0

/-- OperatorFusionPass::CanFuseConvReLU from
src/optimizers/operator_fusion.cpp lines 136-146. -/
def canFuseConvReLU (conv relu : Node) : Bool :=
  if conv.opType != "Conv" then false
  else if relu.opType != "Relu" then false
  else match conv.outputs, relu.inputs with
    | co :: _, ri :: _ => co == ri
    | _, _ => false

/-- OperatorFusionPass::CanFuseBNReLU from
src/optimizers/operator_fusion.cpp lines 148-158. -/
def canFuseBNReLU (bn relu : Node) : Bool :=
  if bn.opType != "BatchNormalization" then false
  else if relu.opType != "Relu" then false
  else match bn.outputs, relu.inputs with
    | bo :: _, ri :: _ => bo == ri
    | _, _ => false

/-- OperatorFusionPass::FuseMatMulAdd from
src/optimizers/operator_fusion.cpp lines 202-245: create the fused node,
copy the matmul attributes, connect the matmul inputs and the first add
input that is not the matmul output (the bias), reuse the add output as
the fused output, set its producer to the fused node, and remove the add
and then the matmul node.  The source indexes outputs[0] of both nodes
unconditionally; the embedding guards the (undefined-behaviour) empty
cases by returning the graph unchanged. -/
def fuseMatMulAdd (g : Graph) (matmulId addId : Int) : Graph :=
  match g.findNode? matmulId, g.findNode? addId with
  | some matmul, some add =>
    match matmul.outputs, add.outputs with
    | mOut :: _, aOut :: _ =>
      let r1 := g.addNode "FusedMatMulAdd" (matmul.name ++ "_" ++ add.name ++ "_fused")
      let g1 := r1.1
      let fid := r1.2
      let g2 := matmul.attrs.foldl
        (fun h kv => h.updateNode fid (fun n => n.setAttribute kv.1 kv.2)) g1
      let g3 := matmul.inputs.foldl (fun h vid => h.nodeAddInput fid vid) g2
      let g4 := match add.inputs.find? (fun vid => vid != mOut) with
                | some bias => g3.nodeAddInput fid bias
                | none => g3
      let g5 := g4.nodeAddOutput fid aOut
      let g6 := g5.updateValue aOut (fun v => { v with producer := some fid })
      (g6.removeNode addId).removeNode matmulId
    | _, _ => g
  | _, _ => g

/-- OperatorFusionPass::FuseConvBNReLU from
src/optimizers/operator_fusion.cpp lines 160-200: create the fused node,
copy the conv attributes, connect the conv inputs and the bn inputs from
index 1 on, reuse the relu output as the fused output, set its producer,
and remove relu, bn and conv in that order. -/
def fuseConvBNReLU (g : Graph) (convId bnId reluId : Int) : Graph :=
  match g.findNode? convId, g.findNode? bnId, g.findNode? reluId with
  | some conv, some bn, some relu =>
    match relu.outputs with
    | rOut :: _ =>
      let r1 := g.addNode "FusedConvBNReLU"
        (conv.name ++ "_" ++ bn.name ++ "_" ++ relu.name ++ "_fused")
      let g1 := r1.1
      let fid := r1.2
      let g2 := conv.attrs.foldl
        (fun h kv => h.updateNode fid (fun n => n.setAttribute kv.1 kv.2)) g1
      let g3 := conv.inputs.foldl (fun h vid => h.nodeAddInput fid vid) g2
      let g4 := (bn.inputs.drop 1).foldl (fun h vid => h.nodeAddInput fid vid) g3
      let g5 := g4.nodeAddOutput fid rOut
      let g6 := g5.updateValue rOut (fun v => { v with producer := some fid })
      ((g6.removeNode reluId).removeNode bnId).removeNode convId
    | _ => g
  | _, _, _ => g

/-- The unit BN parameter tensor built by FuseConvReLU (scale, bias, mean,
var filled with a constant); the data region id of a freshly allocated
buffer is irrelevant to every checked property and is embedded as 0. -/
def unitParamTensor (channels : Int) (value : ℚ) : Tensor :=
  { shape := { dims := [channels], isDynamic := [false] }
    dtype := .FLOAT32
    data := some (0, List.replicate
      (Shape.elementCount { dims := [channels], isDynamic := [false] }).toNat value) }

/-- OperatorFusionPass::FuseConvReLU from
src/optimizers/operator_fusion.cpp lines 247-317: a FusedConvBNReLU node
with the conv attributes and inputs plus four fresh initializer values
carrying unit BN parameters (scale 1, bias 0, mean 0, var 1, with the
channel count read from the conv weight shape); the relu output becomes
the fused output and relu and conv are removed. -/
def fuseConvReLU (g : Graph) (convId reluId : Int) : Graph :=
  match g.findNode? convId, g.findNode? reluId with
  | some conv, some relu =>
    match relu.outputs with
    | rOut :: _ =>
      let r1 := g.addNode "FusedConvBNReLU" (conv.name ++ "_" ++ relu.name ++ "_fused")
      let g1 := r1.1
      let fid := r1.2
      let g2 := conv.attrs.foldl
        (fun h kv => h.updateNode fid (fun n => n.setAttribute kv.1 kv.2)) g1
      let g3 := conv.inputs.foldl (fun h vid => h.nodeAddInput fid vid) g2
      let channels : Int :=
        if conv.inputs.length > 1 then
          match g.tensorOf (conv.inputs.getD 1 0) with
          | some t =>
            match t.shape.dims with
            | d :: _ => d
            | [] => 1
          | none => 1
        else 1
      let a1 := g3.addValue
      let a2 := a1.1.addValue
      let a3 := a2.1.addValue
      let a4 := a3.1.addValue
      let g4 := a4.1
      let g5 := ((((g4.updateValue a1.2
        (fun v => { v with tensor := some (unitParamTensor channels 1) })).updateValue a2.2
        (fun v => { v with tensor := some (unitParamTensor channels 0) })).updateValue a3.2
        (fun v => { v with tensor := some (unitParamTensor channels 0) })).updateValue a4.2
        (fun v => { v with tensor := some (unitParamTensor channels 1) }))
      let g6 := (((g5.nodeAddInput fid a1.2).nodeAddInput fid a2.2).nodeAddInput
        fid a3.2).nodeAddInput fid a4.2
      let g7 := g6.nodeAddOutput fid rOut
      let g8 := g7.updateValue rOut (fun v => { v with producer := some fid })
      (g8.removeNode reluId).removeNode convId
    | _ => g
  | _, _ => g

/-- OperatorFusionPass::FuseBNReLU from
src/optimizers/operator_fusion.cpp lines 319-351: a BatchNormalization
node with the bn attributes plus fused_relu=true, the bn inputs, the relu
output as output; relu and bn are removed. -/
def fuseBNReLU (g : Graph) (bnId reluId : Int) : Graph :=
  match g.findNode? bnId, g.findNode? reluId with
  | some bn, some relu =>
    match relu.outputs with
    | rOut :: _ =>
      let r1 := g.addNode "BatchNormalization" (bn.name ++ "_" ++ relu.name ++ "_fused")
      let g1 := r1.1
      let fid := r1.2
      let g2 := bn.attrs.foldl
        (fun h kv => h.updateNode fid (fun n => n.setAttribute kv.1 kv.2)) g1
      let g3 := g2.updateNode fid (fun n => n.setAttribute "fused_relu" "true")
      let g4 := bn.inputs.foldl (fun h vid => h.nodeAddInput fid vid) g3
      let g5 := g4.nodeAddOutput fid rOut
      let g6 := g5.updateValue rOut (fun v => { v with producer := some fid })
      (g6.removeNode reluId).removeNode bnId
    | _ => g
  | _, _ => g

/-- The per-node pattern test of OperatorFusionPass::Run
(src/optimizers/operator_fusion.cpp lines 29-101): for a node with outputs,
try, in source order, the Conv patterns (Conv-BN-ReLU through the first
consumer chain, else Conv-ReLU), the BN-ReLU pattern and the MatMul-Add
pattern; in each pattern the candidate second (and third) node is the
FIRST consumer of the bridging value.  Returns the rewritten graph when a
pattern fires. -/
def fusionTryNode (g : Graph) (nid : Int) : Option Graph :=
  match g.findNode? nid with
  | none => none
  | some n1 =>
    if n1.outputs.isEmpty then none
    else
      let convResult : Option Graph :=
        if n1.opType == "Conv" then
          match g.consumersOf (n1.outputs.headD 0) with
          | [] => none
          | c0 :: _ =>
            match g.findNode? c0 with
            | none => none
            | some n2 =>
              if n2.opType == "BatchNormalization" && !n2.outputs.isEmpty then
                match g.consumersOf (n2.outputs.headD 0) with
                | [] => none
                | c20 :: _ =>
                  match g.findNode? c20 with
                  | none => none
                  | some n3 =>
                    if n3.opType == "Relu" && canFuseConvBNReLU n1 n2 n3 then
                      some (fuseConvBNReLU g nid c0 c20)
                    else none
              else if n2.opType == "Relu" then
                if canFuseConvReLU n1 n2 then some (fuseConvReLU g nid c0) else none
              else none
        else none
      match convResult with
      | some g2 => some g2
      | none =>
        let bnResult : Option Graph :=
          if n1.opType == "BatchNormalization" then
            match g.consumersOf (n1.outputs.headD 0) with
            | [] => none
            | c0 :: _ =>
              match g.findNode? c0 with
              | none => none
              | some n2 =>
                if n2.opType == "Relu" && canFuseBNReLU n1 n2 then
                  some (fuseBNReLU g nid c0)
                else none
          else none
        match bnResult with
        | some g2 => some g2
        | none =>
          if n1.opType == "MatMul" then
            match g.consumersOf (n1.outputs.headD 0) with
            | [] => none
            | c0 :: _ =>
              match g.findNode? c0 with
              | none => none
              | some n2 =>
                if n2.opType == "Add" && canFuseMatMulAdd n1 n2 then
                  some (fuseMatMulAdd g nid c0)
                else none
          else none

/-- One sweep of the inner for loop of OperatorFusionPass::Run: scan the
topologically sorted node ids and rewrite at the first node where a
pattern fires (the source then breaks out of the loop). -/
def fusionScanGo (g : Graph) : List Int → Option Graph
  | [] => none
  | nid :: rest =>
    match fusionTryNode g nid with
    | some g2 => some g2
    | none => fusionScanGo g rest

/-- The while loop of OperatorFusionPass::Run with its iteration budget:
while the previous sweep changed something and fewer than max_iterations
sweeps have run, sweep again. -/
def fusionIter : Graph → Nat → Graph
  | g, 0 => g
  | g, fuel + 1 =>
    match fusionScanGo g g.topologicalSort with
    | none => g
    | some g2 => fusionIter g2 fuel

/-- OperatorFusionPass::Run from src/optimizers/operator_fusion.cpp lines
12-106 (max_iterations = 10). -/
def operatorFusionRun (g : Graph) : Graph := fusionIter g 10

/-- The rational constant 1e-6, the tolerance of IsZeroTensor (written
with mkRat so that the kernel can evaluate comparisons against it). -/
def zeroEpsilon : ℚ := mkRat 1 1000000

/-- Sanity check: the constant is the rational 1e-6. -/
theorem zeroEpsilon_eq : zeroEpsilon = 1 / 1000000 := by
  norm_num [zeroEpsilon, mkRat, Rat.normalize]

/-- SubgraphReplacementPass::IsZeroTensor from
src/optimizers/optimizer.cpp lines 332-347: FLOAT32 with every element of
magnitude at most 1e-6.  The loop reads GetElementCount() elements from
the data pointer; the embedding reads the payload, with reads past its end
(never performed on tensors whose payload matches their shape) giving 0. -/
def isZeroTensor (t : Tensor) : Bool :=
  if t.dtype != DataType.FLOAT32 then false
  else
    let payload := match t.data with
                   | some d => d.2
                   | none => []
    (List.range t.shape.elementCount.toNat).all
      (fun i => |payload.getD i 0| ≤ zeroEpsilon)

/-- input->GetTensor() && IsZeroTensor(input->GetTensor().get()) for the
value with the given id. -/
def Graph.valueHasZeroTensor (g : Graph) (vid : Int) : Bool :=
  match g.tensorOf vid with
  | some t => isZeroTensor t
  | none => false

/-- The per-node pattern test and rewrite of SubgraphReplacementPass::Run
(src/optimizers/optimizer.cpp lines 275-325): for an Add node with exactly
two inputs of which one carries an all-zero constant tensor, reroute every
consumer of the output to the surviving input, rewrite occurrences of the
output in the graph output list to the surviving input, and remove the
node.  Only this Add pattern is implemented; the Mul pattern appears only
in a comment of the source.  The source indexes outputs[0] without a
guard; the embedding returns none for the (undefined-behaviour) outputless
case. -/
def subgraphTryNode (g : Graph) (nid : Int) : Option Graph :=
  match g.findNode? nid with
  | none => none
  | some n =>
    if n.opType == "Add" && n.inputs.length == 2 then
      let input1 := n.inputs.getD 0 0
      let input2 := n.inputs.getD 1 0
      let survivor? : Option Int :=
        if g.valueHasZeroTensor input1 then some input2
        else if g.valueHasZeroTensor input2 then some input1
        else none
      match survivor? with
      | none => none
      | some survivor =>
        match n.outputs with
        | [] => none
        | out :: _ =>
          let consumers := g.consumersOf out
          let g1 := consumers.foldl
            (fun h cid => (h.nodeRemoveInput cid out).nodeAddInput cid survivor) g
          let g2 := { g1 with
            outputs := g1.outputs.map (fun o => if o == out then survivor else o) }
          some (g2.removeNode nid)
    else none

/-- One sweep of the inner for loop of SubgraphReplacementPass::Run over
the topologically sorted node ids, stopping at the first rewrite. -/
def subgraphScanGo (g : Graph) : List Int → Option Graph
  | [] => none
  | nid :: rest =>
    match subgraphTryNode g nid with
    | some g2 => some g2
    | none => subgraphScanGo g rest

/-- The while loop of SubgraphReplacementPass::Run with its iteration
budget (max_iterations = 5). -/
def subgraphIter : Graph → Nat → Graph
  | g, 0 => g
  | g, fuel + 1 =>
    match subgraphScanGo g g.topologicalSort with
    | none => g
    | some g2 => subgraphIter g2 fuel

/-- SubgraphReplacementPass::Run from src/optimizers/optimizer.cpp lines
258-329. -/
def subgraphReplacementRun (g : Graph) : Graph := subgraphIter g 5

/-- The layout preference rule of MemoryLayoutOptimizationPass::Run
(src/optimizers/optimizer.cpp lines 165-184): Conv, MaxPool, AvgPool and
BatchNormalization prefer NCHW; every other op (the MatMul and Gemm branch
of the source computes exactly the same thing as the default branch)
inherits the layout of its first input, or NCHW with no inputs. -/
def preferredLayout (vl : Int → MemoryLayout) (n : Node) : MemoryLayout :=
  if n.opType == "Conv" || n.opType == "MaxPool" || n.opType == "AvgPool" ||
      n.opType == "BatchNormalization" then
    MemoryLayout.NCHW
  else
    match n.inputs with
    | [] => MemoryLayout.NCHW
    | v0 :: _ => vl v0

/-- The layout assignment walk of MemoryLayoutOptimizationPass::Run (lines
164-191): walk the execution order, record the preferred layout for the
node and stamp it on each output value.  The node and value layout maps
are total functions defaulting to NCHW, matching unordered_map operator[]
whose value-initialized MemoryLayout is 0 = NCHW (and the explicit NCHW
stamped on graph inputs at lines 160-162). -/
def layoutAssignGo (g : Graph) :
    List Int → (Int → MemoryLayout) → (Int → MemoryLayout) →
    (Int → MemoryLayout) × (Int → MemoryLayout)
  | [], nl, vl => (nl, vl)
  | nid :: rest, nl, vl =>
    match g.findNode? nid with
    | none => layoutAssignGo g rest nl vl
    | some n =>
      let pl := preferredLayout vl n
      let nl2 : Int → MemoryLayout := fun x => if x == nid then pl else nl x
      let vl2 := n.outputs.foldl
        (fun f vid => (fun x => if x == vid then pl else f x)) vl
      layoutAssignGo g rest nl2 vl2

/-- The (node layout, value layout) maps computed by
MemoryLayoutOptimizationPass::Run before transpose insertion. -/
def Graph.layoutAssign (g : Graph) : (Int → MemoryLayout) × (Int → MemoryLayout) :=
  layoutAssignGo g g.topologicalSort (fun _ => MemoryLayout.NCHW)
    (fun _ => MemoryLayout.NCHW)

/-- The transpose insertion work list of MemoryLayoutOptimizationPass::Run
(lines 193-208): the (consumer node, input value) pairs whose value layout
differs from the consumer layout and is not UNKNOWN. -/
def Graph.transposeInsertions (g : Graph) : List (Int × Int) :=
  let nl := (g.layoutAssign).1
  let vl := (g.layoutAssign).2
  g.topologicalSort.flatMap (fun nid =>
    match g.findNode? nid with
    | none => []
    | some n =>
      (n.inputs.filter (fun vid =>
        vl vid != nl nid && vl vid != MemoryLayout.UNKNOWN)).map (fun vid => (nid, vid)))

/-- One transpose insertion of MemoryLayoutOptimizationPass::Run (lines
211-237): create the intermediate value and the Transpose node, wire
value-transpose-intermediate-consumer.  NOTE: the source lines 223-225
comment out the SetAttribute call that would store the perm computed by
GetTransposePerm, with a TODO; the new Transpose node therefore keeps an
empty attribute map.  The local value_layouts update of line 236 touches
only the local map and nothing in the graph. -/
def insertLayoutTranspose (g : Graph) (total : Nat) (consumerId inputVid : Int) : Graph :=
  let a := g.addValue
  let g1 := a.1
  let interVid := a.2
  let b := g1.addNode "Transpose" ("layout_transpose_" ++ toString total)
  let g2 := b.1
  let tid := b.2
  let g3 := g2.nodeAddInput tid inputVid
  let g4 := g3.nodeAddOutput tid interVid
  let g5 := g4.nodeRemoveInput consumerId inputVid
  g5.nodeAddInput consumerId interVid

/-- MemoryLayoutOptimizationPass::Run from src/optimizers/optimizer.cpp
lines 142-240: assign layouts, collect the mismatched (consumer, input)
pairs and insert a Transpose for each; the node name uses the total size
of the insertion list, as in the source. -/
def memoryLayoutOptimizationRun (g : Graph) : Graph :=
  let ins := g.transposeInsertions
  ins.foldl (fun h p => insertLayoutTranspose h ins.length p.1 p.2) g

/-- GetTransposePerm from src/optimizers/optimizer.cpp lines 244-252 (an
anonymous-namespace helper that the pass never calls). -/
def getTransposePerm (a b : MemoryLayout) : String :=
  if a == MemoryLayout.NCHW && b == MemoryLayout.NHWC then "0,2,3,1"
  else if a == MemoryLayout.NHWC && b == MemoryLayout.NCHW then "0,3,1,2"
  else "0,1,2,3"

/-- The index loop of GatherOperator::Execute
(src/operators/shape.cpp lines 606-617): for each index, fail with
InvalidArgument when it is negative or at least the axis dimension, else
copy element_size consecutive entries starting at flat offset
idx * stride.  Reads are embedded with get?, so a read past the end of the
data buffer shows up as none in the output. -/
def gatherLoop (data : List ℚ) (dimAxis : Int) (elementSize stride : Nat) :
    List Int → List (Option ℚ) → Status × List (Option ℚ)
  | [], acc => (Status.ok, acc)
  | idx :: rest, acc =>
    if idx < 0 ∨ dimAxis ≤ idx then
      (Status.error .ERROR_INVALID_ARGUMENT "Gather index out of range", acc)
    else
      gatherLoop data dimAxis elementSize stride rest
        (acc ++ (List.range elementSize).map (fun j => data.get? (idx.toNat * stride + j)))

/-- GatherOperator::Execute from src/operators/shape.cpp lines 558-620,
after the input-presence check: normalize the axis attribute (negative
axes count from the back; out-of-range axes fail with InvalidArgument),
compute element_size as the product of the dims after the axis and stride
as element_size times the axis dim, and run the index loop.  The second
component is the flat f32 output written so far, one Option per written
element. -/
def gatherExecute (dataDims : List Int) (data : List ℚ) (axisAttr : Int)
    (indices : List Int) : Status × List (Option ℚ) :=
  let rank : Int := dataDims.length
  let axis0 : Int := if axisAttr < 0 then axisAttr + rank else axisAttr
  if axis0 < 0 ∨ rank ≤ axis0 then
    (Status.error .ERROR_INVALID_ARGUMENT "Gather axis out of range", [])
  else
    let axis := axis0.toNat
    let elementSize : Nat :=
      ((dataDims.drop (axis + 1)).map (fun d => d.toNat)).foldl (fun a d => a * d) 1
    let dimAxis := dataDims.getD axis 0
    let stride := elementSize * dimAxis.toNat
    gatherLoop data dimAxis elementSize stride indices []

/-- A keyed in-place map leaves lookups of other keys unchanged, provided
the update preserves keys. -/
theorem find?_map_if_other {α : Type} (key : α → Int) (f : α → α) (l : List α)
    (hf : ∀ x, key (f x) = key x) (t v : Int) (hw : t ≠ v) :
    (l.map (fun x => if key x == v then f x else x)).find? (fun x => key x == t) =
      l.find? (fun x => key x == t) := by
  induction l with
  | nil => rfl
  | cons x xs ih =>
    by_cases hxv : key x = v
    · rw [List.map_cons, if_pos (by simpa using hxv)]
      have hxt : ¬ (key x = t) := fun h => hw (by rw [← h, hxv])
      rw [List.find?_cons_of_neg _ (by simpa [hf x, hxv] using fun h => hw (by rw [← h])),
        List.find?_cons_of_neg _ (by simpa using hxt)]
      exact ih
    · rw [List.map_cons, if_neg (by simpa using hxv)]
      by_cases hxt : key x = t
      · rw [List.find?_cons_of_pos _ (by simpa using hxt),
          List.find?_cons_of_pos _ (by simpa using hxt)]
      · rw [List.find?_cons_of_neg _ (by simpa using hxt),
          List.find?_cons_of_neg _ (by simpa using hxt)]
        exact ih

/-- Lookup of a key other than the updated one is unchanged by
updateValue (with a key-preserving update). -/
theorem findValue?_updateValue_ne (g : Graph) (vid : Int) (f : Value → Value)
    (hf : ∀ w : Value, (f w).id = w.id) (w : Int) (hw : w ≠ vid) :
    (g.updateValue vid f).findValue? w = g.findValue? w := by
  rw [Graph.findValue?, Graph.findValue?]
  exact find?_map_if_other (fun v => v.id) f g.values hf w vid hw

/-- Lookup of a node other than the updated one is unchanged by
updateNode (with an id-preserving update). -/
theorem findNode?_updateNode_ne (g : Graph) (nid : Int) (f : Node → Node)
    (hf : ∀ m : Node, (f m).id = m.id) (w : Int) (hw : w ≠ nid) :
    (g.updateNode nid f).findNode? w = g.findNode? w := by
  rw [Graph.findNode?, Graph.findNode?]
  exact find?_map_if_other (fun n => n.id) f g.nodes hf w nid hw

/-- find? commutes with appending on the right when it already succeeds. -/
theorem find?_append_left {α : Type} (p : α → Bool) (l₁ l₂ : List α) (a : α)
    (h : l₁.find? p = some a) : (l₁ ++ l₂).find? p = some a := by
  induction l₁ with
  | nil => cases h
  | cons x xs ih =>
    by_cases hx : p x
    · rw [List.find?_cons_of_pos _ hx] at h
      rw [List.cons_append, List.find?_cons_of_pos _ hx]
      exact h
    · rw [List.find?_cons_of_neg _ hx] at h
      rw [List.cons_append, List.find?_cons_of_neg _ hx]
      exact ih h

/-- find? over an everywhere-failing prefix followed by a singleton picks
the singleton when it matches. -/
theorem find?_append_singleton {α : Type} (p : α → Bool) (l : List α) (a : α)
    (hl : ∀ x ∈ l, p x = false) (ha : p a = true) :
    (l ++ [a]).find? p = some a := by
  induction l with
  | nil =>
    rw [List.nil_append]
    exact List.find?_cons_of_pos _ ha
  | cons x xs ih =>
    rw [List.cons_append, List.find?_cons_of_neg _ (by simp [hl x (List.mem_cons_self x xs)])]
    exact ih (fun y hy => hl y (List.mem_cons_of_mem x hy))

/-- A successful find? survives filtering when the found element passes the
filter (the skipped prefix keeps failing the predicate either way). -/
theorem find?_filter {α : Type} (p q : α → Bool) (l : List α) (a : α)
    (h : l.find? p = some a) (hq : q a = true) :
    (l.filter q).find? p = some a := by
  induction l with
  | nil => cases h
  | cons x xs ih =>
    by_cases hx : p x
    · rw [List.find?_cons_of_pos _ hx] at h
      injection h with h
      subst h
      rw [List.filter_cons, if_pos hq, List.find?_cons_of_pos _ hx]
    · rw [List.find?_cons_of_neg _ hx] at h
      rw [List.filter_cons]
      by_cases hqx : q x
      · rw [if_pos hqx, List.find?_cons_of_neg _ hx]
        exact ih h
      · rw [if_neg hqx]
        exact ih h

/-- Folding graph-to-graph steps that leave the nodes arena unchanged
leaves the nodes arena unchanged. -/
theorem foldl_nodes_invariant {α : Type} (l : List α) (step : Graph → α → Graph)
    (hstep : ∀ h x, (step h x).nodes = h.nodes) :
    ∀ g0 : Graph, (l.foldl step g0).nodes = g0.nodes := by
  induction l with
  | nil => intro g0; rfl
  | cons x xs ih =>
    intro g0
    rw [List.foldl_cons, ih, hstep]

/-- Folding graph-to-graph steps that leave the graph output list
unchanged leaves it unchanged. -/
theorem foldl_outputs_invariant {α : Type} (l : List α) (step : Graph → α → Graph)
    (hstep : ∀ h x, (step h x).outputs = h.outputs) :
    ∀ g0 : Graph, (l.foldl step g0).outputs = g0.outputs := by
  induction l with
  | nil => intro g0; rfl
  | cons x xs ih =>
    intro g0
    rw [List.foldl_cons, ih, hstep]

/-- Graph::RemoveNode erases exactly the node with the given id from the
nodes arena (when the node exists). -/
theorem removeNode_nodes (g : Graph) (nid : Int) (n : Node)
    (h : g.findNode? nid = some n) :
    (g.removeNode nid).nodes = g.nodes.filter (fun m => m.id ≠ nid) := by
  have hfold : (n.outputs.foldl (fun h vid => h.updateValue vid
      (fun v => if v.producer == some nid then { v with producer := none } else v))
      (n.inputs.foldl (fun h vid =>
        h.updateValue vid (fun v => v.removeConsumer nid)) g)).nodes = g.nodes := by
    rw [foldl_nodes_invariant n.outputs (fun h vid => h.updateValue vid
        (fun v => if v.producer == some nid then { v with producer := none } else v))
        (fun h x => rfl),
      foldl_nodes_invariant n.inputs
        (fun h vid => h.updateValue vid (fun v => v.removeConsumer nid))
        (fun h x => rfl)]
  simp only [Graph.removeNode, h]
  rw [hfold]

/-- Graph::RemoveNode leaves the graph output list unchanged. -/
theorem removeNode_outputs (g : Graph) (nid : Int) :
    (g.removeNode nid).outputs = g.outputs := by
  cases h : g.findNode? nid with
  | none => simp only [Graph.removeNode, h]
  | some n =>
    have hfold : (n.outputs.foldl (fun h vid => h.updateValue vid
        (fun v => if v.producer == some nid then { v with producer := none } else v))
        (n.inputs.foldl (fun h vid =>
          h.updateValue vid (fun v => v.removeConsumer nid)) g)).outputs = g.outputs := by
      rw [foldl_outputs_invariant n.outputs (fun h vid => h.updateValue vid
          (fun v => if v.producer == some nid then { v with producer := none } else v))
          (fun h x => rfl),
        foldl_outputs_invariant n.inputs
          (fun h vid => h.updateValue vid (fun v => v.removeConsumer nid))
          (fun h x => rfl)]
    simp only [Graph.removeNode, h]
    rw [hfold]

/-- Removing a list of existing nodes with distinct ids from a graph with
duplicate-free node ids removes exactly those ids. -/
theorem foldl_removeNode_nodes (S : List Node) :
    ∀ g : Graph, (g.nodes.map (fun n => n.id)).Nodup →
    (∀ n ∈ S, n ∈ g.nodes) → (S.map (fun n => n.id)).Nodup →
    (S.foldl (fun h n => h.removeNode n.id) g).nodes =
      g.nodes.filter (fun m => decide (m.id ∉ S.map (fun n => n.id))) := by
  induction S with
  | nil =>
    intro g _ _ _
    simp
  | cons a S ih =>
    intro g hnd hS hSnd
    rw [List.foldl_cons]
    have hfind : g.findNode? a.id = some a :=
      findNode?_of_mem g a hnd (hS a (List.mem_cons_self a S))
    have hrem := removeNode_nodes g a.id a hfind
    have haS : a.id ∉ S.map (fun n => n.id) := (List.nodup_cons.mp hSnd).1
    have hnd2 : ((g.removeNode a.id).nodes.map (fun n => n.id)).Nodup := by
      rw [hrem]
      exact hnd.sublist ((List.filter_sublist _).map _)
    have hS2 : ∀ n ∈ S, n ∈ (g.removeNode a.id).nodes := by
      intro n hn
      rw [hrem]
      refine List.mem_filter.mpr ⟨hS n (List.mem_cons_of_mem a hn), ?_⟩
      have hne : n.id ≠ a.id := by
        intro he
        exact haS (he ▸ List.mem_map.mpr ⟨n, hn, rfl⟩)
      simpa using hne
    rw [ih (g.removeNode a.id) hnd2 hS2 (List.nodup_cons.mp hSnd).2, hrem,
      List.filter_filter]
    apply List.filter_congr
    intro m _
    by_cases hma : m.id = a.id
    · simp [hma, haS]
    · simp [hma]

/-- C7 amended theorem.  A single run of DeadCodeEliminationPass removes
exactly the nodes that are dead at the start of the run: a node survives
the run if and only if it has no outputs or some output that is consumed
or is a graph output, all judged against the graph at entry.  Nodes that
only become dead because of these removals survive this run (see the
counterexample dce_not_idempotent), so the pass does not iterate to a
fixed point and is not idempotent. -/
theorem dce_single_sweep (g : Graph)
    (hnd : (g.nodes.map (fun n => n.id)).Nodup) :
    ∀ n ∈ g.nodes, (n ∈ (deadCodeEliminationRun g).nodes ↔
      (n.outputs = [] ∨ ∃ vid ∈ n.outputs,
        g.consumersOf vid ≠ [] ∨ vid ∈ g.outputs)) := by
  intro n hn
  have hchar := foldl_removeNode_nodes
    (g.nodes.filter fun n =>
      !(n.outputs.any fun vid =>
          !(g.consumersOf vid).isEmpty || vid ∈ g.outputs) && !n.outputs.isEmpty)
    g hnd (fun m hm => (List.mem_filter.mp hm).1)
    (hnd.sublist ((List.filter_sublist _).map _))
  rw [deadCodeEliminationRun, hchar]
  constructor
  · intro hmem
    have hkeep := (List.mem_filter.mp hmem).2
    rw [decide_eq_true_iff] at hkeep
    by_cases hout : n.outputs = []
    · exact Or.inl hout
    · right
      by_contra hnone
      push_neg at hnone
      apply hkeep
      refine List.mem_map.mpr ⟨n, List.mem_filter.mpr ⟨hn, ?_⟩, rfl⟩
      have h1 : (n.outputs.any fun vid =>
          !(g.consumersOf vid).isEmpty || vid ∈ g.outputs) = false := by
        rw [List.any_eq_false]
        intro vid hvid
        obtain ⟨hc, ho⟩ := hnone vid hvid
        simp [hc, ho]
      simp [h1, hout]
  · intro hlive
    refine List.mem_filter.mpr ⟨hn, ?_⟩
    rw [decide_eq_true_iff]
    intro hinmap
    obtain ⟨m, hmf, hmid⟩ := List.mem_map.mp hinmap
    obtain ⟨hmmem, hmdead⟩ := List.mem_filter.mp hmf
    have hmn : m = n :=
      mem_key_unique (fun n => n.id) g.nodes hnd m n hmmem hn hmid
    subst hmn
    rw [Bool.and_eq_true, Bool.not_eq_true', Bool.not_eq_true'] at hmdead
    obtain ⟨hnotany, hnotempty⟩ := hmdead
    rcases hlive with hout | ⟨vid, hvid, hused⟩
    · rw [hout] at hnotempty
      simp at hnotempty
    · rw [List.any_eq_false] at hnotany
      have hthis := hnotany vid hvid
      rw [Bool.not_eq_true, Bool.or_eq_false_iff] at hthis
      rcases hused with hc | ho
      · have h1 : (g.consumersOf vid).isEmpty = true := by simpa using hthis.1
        exact hc (List.isEmpty_iff.mp h1)
      · have h2 : ¬ vid ∈ g.outputs := by simpa using hthis.2
        exact h2 ho

/-- Witness for the C7 amended theorem on the chain graph: node 2 (whose
output is the graph output) survives one run. -/
theorem dce_single_sweep_witness :
    { id := 2, opType := "Relu", inputs := [10], outputs := [13] } ∈
      (deadCodeEliminationRun dceChainGraph).nodes :=
  (dce_single_sweep dceChainGraph (by decide)
    { id := 2, opType := "Relu", inputs := [10], outputs := [13] }
    (by decide)).mpr (Or.inr ⟨13, by decide, Or.inr (by decide)⟩)

/-- C9 exhibit.  On data of shape 2 by 2 with payload [1, 2, 3, 4],
axis 0 and the fully in-range index list [0, 1], the Gather kernel reads
flat offsets 4 and 5, past the end of the 4-element buffer (the none
entries below), because stride is computed as element_size times the axis
dim (4) instead of element_size (2); and with index list [0, 5] it stops
with InvalidArgument after writing only the output prefix for the indices
before the offending one. -/
theorem gather_out_of_bounds_read :
    gatherExecute [2, 2] [1, 2, 3, 4] 0 [0, 1] =
      (Status.ok, [some 1, some 2, none, none]) ∧
    (∀ i ∈ ([0, 1] : List Int), 0 ≤ i ∧ i < 2) ∧
    gatherExecute [2, 2] [1, 2, 3, 4] 0 [0, 5] =
      (Status.error .ERROR_INVALID_ARGUMENT "Gather index out of range",
        [some 1, some 2]) := by
  refine ⟨by rfl, by decide, by rfl⟩

/-- With every layout NCHW, the preferred layout of any node is NCHW. -/
theorem preferredLayout_const (vl : Int → MemoryLayout)
    (hvl : ∀ x, vl x = MemoryLayout.NCHW) (n : Node) :
    preferredLayout vl n = MemoryLayout.NCHW := by
  simp only [preferredLayout]
  split
  · rfl
  · split
    · rfl
    · exact hvl _

/-- Stamping NCHW over a pointwise-NCHW map keeps it pointwise NCHW. -/
theorem stampOutputs_const (pl : MemoryLayout) (hpl : pl = MemoryLayout.NCHW)
    (outs : List Int) :
    ∀ vl : Int → MemoryLayout, (∀ x, vl x = MemoryLayout.NCHW) →
      ∀ x, (outs.foldl (fun f vid => (fun y => if y == vid then pl else f y)) vl) x
        = MemoryLayout.NCHW := by
  induction outs with
  | nil => intro vl hvl x; exact hvl x
  | cons o rest ih =>
    intro vl hvl x
    rw [List.foldl_cons]
    refine ih _ (fun y => ?_) x
    by_cases hy : (y == o) = true
    · rw [if_pos hy]; exact hpl
    · rw [if_neg hy]; exact hvl y

/-- The layout walk of MemoryLayoutOptimizationPass::Run keeps both layout
maps pointwise NCHW when they start pointwise NCHW: every rule of
preferredLayout propagates NCHW. -/
theorem layoutAssignGo_const (g : Graph) (order : List Int) :
    ∀ nl vl : Int → MemoryLayout,
      (∀ x, nl x = MemoryLayout.NCHW) → (∀ x, vl x = MemoryLayout.NCHW) →
      (∀ x, (layoutAssignGo g order nl vl).1 x = MemoryLayout.NCHW) ∧
      (∀ x, (layoutAssignGo g order nl vl).2 x = MemoryLayout.NCHW) := by
  induction order with
  | nil => intro nl vl hnl hvl; exact ⟨hnl, hvl⟩
  | cons nid rest ih =>
    intro nl vl hnl hvl
    simp only [layoutAssignGo]
    cases hfind : g.findNode? nid with
    | none => exact ih nl vl hnl hvl
    | some n =>
      refine ih _ _ (fun x => ?_) (fun x => ?_)
      · by_cases hx : (x == nid) = true
        · rw [if_pos hx]; exact preferredLayout_const vl hvl n
        · rw [if_neg hx]; exact hnl x
      · exact stampOutputs_const _ (preferredLayout_const vl hvl n) n.outputs vl hvl x

/-- Both layout maps the pass computes are pointwise NCHW on every graph. -/
theorem layoutAssign_const (g : Graph) :
    (∀ x, (g.layoutAssign).1 x = MemoryLayout.NCHW) ∧
    (∀ x, (g.layoutAssign).2 x = MemoryLayout.NCHW) :=
  layoutAssignGo_const g g.topologicalSort _ _ (fun _ => rfl) (fun _ => rfl)

/-- The transpose-insertion work list is empty on every graph: a value
layout never differs from a consumer layout, so the insertion branch of
the pass is unreachable. -/
theorem transposeInsertions_nil (g : Graph) : g.transposeInsertions = [] := by
  have h := layoutAssign_const g
  simp only [Graph.transposeInsertions]
  rw [List.flatMap_eq_nil_iff]
  intro nid _
  cases hfind : g.findNode? nid with
  | none => simp [hfind]
  | some n =>
    simp only [hfind]
    rw [List.map_eq_nil_iff, List.filter_eq_nil_iff]
    intro vid _
    simp [h.1 nid, h.2 vid]

/-- MemoryLayoutOptimizationPass::Run is the identity on every graph. -/
theorem memoryLayoutOptimizationRun_id (g : Graph) :
    memoryLayoutOptimizationRun g = g := by
  simp [memoryLayoutOptimizationRun, transposeInsertions_nil g]

/-- A one-node graph on which the (unreachable) insertion helper of the
pass is exercised directly. -/
def gLayoutExhibit : Graph :=
  { nodes := [{ id := 0, opType := "Relu", name := "relu0",
                inputs := [10], outputs := [11] }],
    values := [{ id := 10, consumers := [0] },
               { id := 11, producer := some 0 }],
    inputs := [10], outputs := [11], nextNodeId := 1, nextValueId := 12 }

/-- C2.  Contrary to the claim, MemoryLayoutOptimizationPass::Run never
sets a perm attribute on any Transpose node it would insert: first, on
every graph the assigned layouts all come out NCHW (the enum default that
unordered_map operator[] value-initializes), so the work list is empty and
the pass is the identity, inserting no Transpose node at all; second, even
when the insertion helper is exercised directly, the SetAttribute call of
the source is commented out (optimizer.cpp lines 223-225, marked TODO), so
the inserted Transpose node carries no perm attribute, as the concrete run
on gLayoutExhibit shows; the GetTransposePerm helper that would supply the
permutation strings computes them but is never called by the pass. -/
theorem layout_pass_never_sets_perm :
    (∀ g : Graph, g.transposeInsertions = [] ∧ memoryLayoutOptimizationRun g = g) ∧
    ((insertLayoutTranspose gLayoutExhibit 1 0 10).findNode? 1).map
        (fun n => (n.opType, n.hasAttribute "perm", n.inputs, n.outputs))
      = some ("Transpose", false, [10], [12]) ∧
    getTransposePerm MemoryLayout.NCHW MemoryLayout.NHWC = "0,2,3,1" ∧
    getTransposePerm MemoryLayout.NHWC MemoryLayout.NCHW = "0,3,1,2" := by
  refine ⟨fun g => ⟨transposeInsertions_nil g, memoryLayoutOptimizationRun_id g⟩,
    ?_, rfl, rfl⟩
  rfl

/-- A graph whose bridging value 12 (the MatMul output) has two consumers:
the Add node 1 and the Relu node 2. -/
def gFuse : Graph :=
  { nodes :=
      [{ id := 0, opType := "MatMul", name := "mm", inputs := [10, 11], outputs := [12] },
       { id := 1, opType := "Add", name := "add", inputs := [12, 13], outputs := [14] },
       { id := 2, opType := "Relu", name := "relu", inputs := [12], outputs := [15] }],
    values :=
      [{ id := 10, consumers := [0] },
       { id := 11, consumers := [0] },
       { id := 12, producer := some 0, consumers := [1, 2] },
       { id := 13, consumers := [1] },
       { id := 14, producer := some 1 },
       { id := 15, producer := some 2 }],
    inputs := [10, 11, 13], outputs := [14, 15],
    nextNodeId := 3, nextValueId := 16 }

/-- Counterexample for C3.  In gFuse the bridging value 12 has the two
consumers 1 (Add) and 2 (Relu), so under the claim the MatMul-Add pattern
must not fire; but OperatorFusionPass::Run fuses anyway (it looks only at
the first consumer and never checks for other uses): afterwards only the
Relu and the fused node remain, the surviving Relu still reads value 12,
and value 12 is left with no producer. -/
theorem fusion_ignores_extra_consumers :
    gFuse.consumersOf 12 = [1, 2] ∧
    (operatorFusionRun gFuse).nodes.map (fun n => (n.id, n.opType))
      = [(2, "Relu"), (3, "FusedMatMulAdd")] ∧
    ((operatorFusionRun gFuse).findNode? 2).map (fun n => n.inputs) = some [12] ∧
    (operatorFusionRun gFuse).producerOf 12 = none :=
  ⟨rfl, rfl, rfl, rfl⟩

/-- C3 amended theorem.  OperatorFusionPass fuses a MatMul-Add pair as soon
as the FIRST consumer of the bridging value is an Add node passing
CanFuseMatMulAdd; the remaining consumer list (rest) is arbitrary and never
examined, so no sole-consumer condition is enforced (the claimed
requirement fails; see the counterexample fusion_ignores_extra_consumers). -/
theorem fusionTryNode_matmul_first_consumer (g : Graph) (nid c0 : Int)
    (rest : List Int) (n1 n2 : Node)
    (h1 : g.findNode? nid = some n1) (hop : n1.opType = "MatMul")
    (hout : n1.outputs.isEmpty = false)
    (hcons : g.consumersOf (n1.outputs.headD 0) = c0 :: rest)
    (h2 : g.findNode? c0 = some n2)
    (hadd : n2.opType = "Add") (hcan : canFuseMatMulAdd n1 n2 = true) :
    fusionTryNode g nid = some (fuseMatMulAdd g nid c0) := by
  simp only [fusionTryNode, h1, hop, hcons, h2, hadd]
  simp [hout, hcan]

/-- Witness for the C3 amended theorem on gFuse: the pattern fires at the
MatMul node 0 with first consumer 1 while the other consumer 2 exists. -/
theorem fusionTryNode_matmul_first_consumer_witness :
    fusionTryNode gFuse 0 = some (fuseMatMulAdd gFuse 0 1) :=
  fusionTryNode_matmul_first_consumer gFuse 0 1 [2]
    { id := 0, opType := "MatMul", name := "mm", inputs := [10, 11], outputs := [12] }
    { id := 1, opType := "Add", name := "add", inputs := [12, 13], outputs := [14] }
    rfl rfl rfl rfl rfl rfl (by decide)

/-- A graph with an Add node whose first input carries an all-zero FLOAT32
constant (the Add(0, x) identity pattern), whose output feeds a Relu and
is also a graph output. -/
def gAddZero : Graph :=
  { nodes :=
      [{ id := 0, opType := "Add", name := "add0", inputs := [10, 11], outputs := [12] },
       { id := 1, opType := "Relu", name := "relu1", inputs := [12], outputs := [13] }],
    values :=
      [{ id := 10, tensor := some { shape := { dims := [2], isDynamic := [false] },
                                    dtype := .FLOAT32, data := some (0, [0, 0]) },
         consumers := [0] },
       { id := 11, consumers := [0] },
       { id := 12, producer := some 0, consumers := [1] },
       { id := 13, producer := some 1 }],
    inputs := [11], outputs := [13, 12], nextNodeId := 2, nextValueId := 14 }

/-- A graph with a Mul node whose first input carries an all-one FLOAT32
constant (the Mul(1, x) identity pattern the spec lists). -/
def gMulOne : Graph :=
  { nodes := [{ id := 0, opType := "Mul", name := "mul0",
                inputs := [20, 21], outputs := [22] }],
    values := [{ id := 20, tensor := some (unitParamTensor 2 1), consumers := [0] },
               { id := 21, consumers := [0] },
               { id := 22, producer := some 0 }],
    inputs := [21], outputs := [22], nextNodeId := 1, nextValueId := 23 }

/-- Counterexample for C8.  In gMulOne the Mul node has the all-one
constant input 20, so under the claim it must be removed; but
SubgraphReplacementPass::Run returns the graph unchanged: only the
Add(0, x) pattern is implemented (the Mul case exists as a comment in the
source), so no Mul node is ever eliminated. -/
theorem mul_identity_not_eliminated :
    gMulOne.tensorOf 20 = some (unitParamTensor 2 1) ∧
    subgraphReplacementRun gMulOne = gMulOne := by
  exact ⟨rfl, by decide⟩

/-- C8 amended theorem.  SubgraphReplacementPass::Run eliminates only the
Add-with-zero-constant identity: the rewrite never fires at a node whose
op type is not Add (first conjunct, so in particular every Mul node
survives; see the counterexample mul_identity_not_eliminated), and on an
Add(0, x) instance it behaves as claimed, as the run on gAddZero shows:
the Add node 0 is removed, the consumer Relu is rerouted to the surviving
input 11, and the graph output list rewrites the removed output 12 to 11. -/
theorem subgraph_replacement_add_zero_only :
    (∀ (g : Graph) (nid : Int) (n : Node), g.findNode? nid = some n →
        n.opType ≠ "Add" → subgraphTryNode g nid = none) ∧
    (subgraphReplacementRun gAddZero).nodes.map (fun n => (n.id, n.opType))
      = [(1, "Relu")] ∧
    ((subgraphReplacementRun gAddZero).findNode? 1).map (fun n => n.inputs)
      = some [11] ∧
    (subgraphReplacementRun gAddZero).outputs = [13, 11] := by
  refine ⟨?_, by decide, by decide, by decide⟩
  intro g nid n hfind hop
  have hb : (n.opType == "Add") = false := by simpa using hop
  simp [subgraphTryNode, hfind, hb]

/-- Witness for the C8 amended theorem: the rewrite does not fire at the
Mul node of gMulOne. -/
theorem subgraph_replacement_add_zero_only_witness :
    subgraphTryNode gMulOne 0 = none :=
  subgraph_replacement_add_zero_only.1 gMulOne 0
    { id := 0, opType := "Mul", name := "mul0", inputs := [20, 21], outputs := [22] }
    rfl (by decide)

/-- The value ids of the arena (identity of the Value objects). -/
def Graph.valueIds (g : Graph) : List Int := g.values.map (fun v => v.id)

/-- AddConsumer never changes the identity of the value. -/
theorem addConsumer_id (v : Value) (nid : Int) : (v.addConsumer nid).id = v.id := by
  simp only [Value.addConsumer]
  split
  · rfl
  · rfl

/-- SetAttribute never changes the identity of the node. -/
theorem setAttribute_id (n : Node) (k v : String) : (n.setAttribute k v).id = n.id := by
  simp only [Node.setAttribute]
  split
  · rfl
  · rfl

/-- SetAttribute never changes the op type of the node. -/
theorem setAttribute_opType (n : Node) (k v : String) :
    (n.setAttribute k v).opType = n.opType := by
  simp only [Node.setAttribute]
  split
  · rfl
  · rfl

/-- SetAttribute never changes the output list of the node. -/
theorem setAttribute_outputs (n : Node) (k v : String) :
    (n.setAttribute k v).outputs = n.outputs := by
  simp only [Node.setAttribute]
  split
  · rfl
  · rfl

/-- A keyed in-place map, observed through the lookup: the lookup after the
update is the lookup before, with the update applied to the hit. -/
theorem find?_map_if_obs {α : Type} (key : α → Int) (f : α → α) (l : List α)
    (hf : ∀ x, key (f x) = key x) (t v : Int) :
    (l.map (fun x => if key x == v then f x else x)).find? (fun x => key x == t) =
      (l.find? (fun x => key x == t)).map (fun x => if key x == v then f x else x) := by
  induction l with
  | nil => rfl
  | cons x xs ih =>
    have hkey : key (if key x == v then f x else x) = key x := by
      split
      · exact hf x
      · rfl
    rw [List.map_cons, List.find?_cons, List.find?_cons, hkey]
    by_cases hxt : (key x == t) = true
    · rw [hxt]
      rfl
    · rw [Bool.not_eq_true] at hxt
      rw [hxt]
      exact ih

/-- Node lookup after updateNode, as a map over the lookup before. -/
theorem findNode?_updateNode_eval (g : Graph) (nid : Int) (f : Node → Node)
    (hf : ∀ m : Node, (f m).id = m.id) (t : Int) :
    (g.updateNode nid f).findNode? t =
      (g.findNode? t).map (fun m => if m.id == nid then f m else m) := by
  rw [Graph.findNode?, Graph.findNode?]
  exact find?_map_if_obs (fun m => m.id) f g.nodes hf t nid

/-- Value lookup after updateValue, as a map over the lookup before. -/
theorem findValue?_updateValue_eval (g : Graph) (vid : Int) (f : Value → Value)
    (hf : ∀ w : Value, (f w).id = w.id) (t : Int) :
    (g.updateValue vid f).findValue? t =
      (g.findValue? t).map (fun w => if w.id == vid then f w else w) := by
  rw [Graph.findValue?, Graph.findValue?]
  exact find?_map_if_obs (fun w => w.id) f g.values hf t vid

/-- A fold of graph steps preserves any measure each step preserves. -/
theorem foldl_measure_invariant {α β : Type} (μ : Graph → β) (l : List α)
    (step : Graph → α → Graph) (hstep : ∀ h x, μ (step h x) = μ h) :
    ∀ g0 : Graph, μ (l.foldl step g0) = μ g0 := by
  induction l with
  | nil => intro g0; rfl
  | cons x xs ih =>
    intro g0
    rw [List.foldl_cons, ih, hstep]

/-- An update that keeps value identities keeps the id list of the arena. -/
theorem valueIds_updateValue (g : Graph) (vid : Int) (f : Value → Value)
    (hf : ∀ w : Value, (f w).id = w.id) :
    (g.updateValue vid f).valueIds = g.valueIds := by
  simp only [Graph.valueIds, Graph.updateValue, List.map_map]
  refine List.map_congr_left (fun v _ => ?_)
  simp only [Function.comp]
  split
  · exact hf v
  · rfl

/-- Node::AddInput creates no value and destroys none. -/
theorem valueIds_nodeAddInput (g : Graph) (nid vid : Int) :
    (g.nodeAddInput nid vid).valueIds = g.valueIds := by
  cases h : g.findNode? nid with
  | none => simp only [Graph.nodeAddInput, h]
  | some n =>
    simp only [Graph.nodeAddInput, h]
    split
    · rfl
    · exact valueIds_updateValue _ vid _ (fun w => addConsumer_id w nid)

/-- Node::AddOutput creates no value and destroys none. -/
theorem valueIds_nodeAddOutput (g : Graph) (nid vid : Int) :
    (g.nodeAddOutput nid vid).valueIds = g.valueIds := by
  cases h : g.findNode? nid with
  | none => simp only [Graph.nodeAddOutput, h]
  | some n =>
    simp only [Graph.nodeAddOutput, h]
    split
    · rfl
    · exact valueIds_updateValue _ vid _ (fun w => rfl)

/-- Graph::RemoveNode removes no value from the arena. -/
theorem valueIds_removeNode (g : Graph) (nid : Int) :
    (g.removeNode nid).valueIds = g.valueIds := by
  cases h : g.findNode? nid with
  | none => simp only [Graph.removeNode, h]
  | some n =>
    simp only [Graph.removeNode, h]
    have h1 : ∀ g0 : Graph,
        (n.inputs.foldl (fun h vid =>
          h.updateValue vid (fun v => v.removeConsumer nid)) g0).valueIds = g0.valueIds :=
      foldl_measure_invariant Graph.valueIds n.inputs _
        (fun h x => valueIds_updateValue h x _ (fun w => rfl))
    have h2 : ∀ g0 : Graph,
        (n.outputs.foldl (fun h vid => h.updateValue vid
          (fun v => if v.producer == some nid then { v with producer := none } else v))
          g0).valueIds = g0.valueIds :=
      foldl_measure_invariant Graph.valueIds n.outputs _
        (fun h x => valueIds_updateValue h x _ (fun w => by split <;> rfl))
    show (n.outputs.foldl _ (n.inputs.foldl _ g)).valueIds = g.valueIds
    rw [h2, h1]

/-- Node::AddInput leaves the graph output list unchanged. -/
theorem outputs_nodeAddInput (g : Graph) (nid vid : Int) :
    (g.nodeAddInput nid vid).outputs = g.outputs := by
  cases h : g.findNode? nid with
  | none => simp only [Graph.nodeAddInput, h]
  | some n =>
    simp only [Graph.nodeAddInput, h]
    split
    · rfl
    · rfl

/-- Node::AddOutput leaves the graph output list unchanged. -/
theorem outputs_nodeAddOutput (g : Graph) (nid vid : Int) :
    (g.nodeAddOutput nid vid).outputs = g.outputs := by
  cases h : g.findNode? nid with
  | none => simp only [Graph.nodeAddOutput, h]
  | some n =>
    simp only [Graph.nodeAddOutput, h]
    split
    · rfl
    · rfl

/-- An id-, op-type- and output-preserving node update is invisible to the
(op type, outputs) observation of any lookup. -/
theorem nodeObs_updateNode (g : Graph) (nid : Int) (f : Node → Node) (t : Int)
    (hid : ∀ m : Node, (f m).id = m.id)
    (hop : ∀ m : Node, (f m).opType = m.opType)
    (houts : ∀ m : Node, (f m).outputs = m.outputs) :
    ((g.updateNode nid f).findNode? t).map (fun m => (m.opType, m.outputs)) =
      (g.findNode? t).map (fun m => (m.opType, m.outputs)) := by
  rw [findNode?_updateNode_eval g nid f hid t]
  cases g.findNode? t with
  | none => rfl
  | some m =>
    simp only [Option.map_some']
    split
    · rw [hop, houts]
    · rfl

/-- Node::AddInput is invisible to the (op type, outputs) observation. -/
theorem nodeObs_nodeAddInput (g : Graph) (nid vid t : Int) :
    ((g.nodeAddInput nid vid).findNode? t).map (fun m => (m.opType, m.outputs)) =
      (g.findNode? t).map (fun m => (m.opType, m.outputs)) := by
  cases h : g.findNode? nid with
  | none => simp only [Graph.nodeAddInput, h]
  | some n =>
    simp only [Graph.nodeAddInput, h]
    split
    · rfl
    · rw [findNode?_updateValue]
      exact nodeObs_updateNode g nid _ t (fun m => rfl) (fun m => rfl) (fun m => rfl)

/-- Node::AddInput never creates or destroys a value binding. -/
theorem findValue?_isSome_nodeAddInput (g : Graph) (nid vid t : Int) :
    ((g.nodeAddInput nid vid).findValue? t).isSome = (g.findValue? t).isSome := by
  cases h : g.findNode? nid with
  | none => simp only [Graph.nodeAddInput, h]
  | some n =>
    simp only [Graph.nodeAddInput, h]
    split
    · rfl
    · rw [findValue?_updateValue_eval _ vid (fun w => w.addConsumer nid)
        (fun w => addConsumer_id w nid) t, findValue?_updateNode]
      cases g.findValue? t <;> rfl

/-- Node::AddOutput never creates or destroys a value binding. -/
theorem findValue?_isSome_nodeAddOutput (g : Graph) (nid vid t : Int) :
    ((g.nodeAddOutput nid vid).findValue? t).isSome = (g.findValue? t).isSome := by
  cases h : g.findNode? nid with
  | none => simp only [Graph.nodeAddOutput, h]
  | some n =>
    simp only [Graph.nodeAddOutput, h]
    split
    · rfl
    · rw [findValue?_updateValue_eval _ vid (fun w => { w with producer := some nid })
        (fun w => rfl) t, findValue?_updateNode]
      cases g.findValue? t <;> rfl

/-- A fold of graph steps preserves any property each step preserves. -/
theorem foldl_prop_invariant {α : Type} (l : List α) (step : Graph → α → Graph)
    (P : Graph → Prop) (hstep : ∀ h x, P h → P (step h x)) :
    ∀ g0 : Graph, P g0 → P (l.foldl step g0) := by
  induction l with
  | nil => intro g0 h; exact h
  | cons x xs ih =>
    intro g0 h
    rw [List.foldl_cons]
    exact ih _ (hstep g0 x h)

/-- The id Graph::AddNode hands out is the node id counter. -/
theorem addNode_snd (G : Graph) (op nm : String) : (G.addNode op nm).2 = G.nextNodeId := rfl

/-- Graph::AddNode creates no value. -/
theorem valueIds_addNode (G : Graph) (op nm : String) :
    ((G.addNode op nm).1).valueIds = G.valueIds := rfl

/-- Graph::AddNode leaves the graph output list unchanged. -/
theorem outputs_addNode (G : Graph) (op nm : String) :
    ((G.addNode op nm).1).outputs = G.outputs := rfl

/-- Graph::AddNode leaves every value lookup unchanged. -/
theorem findValue?_addNode (G : Graph) (op nm : String) (t : Int) :
    ((G.addNode op nm).1).findValue? t = G.findValue? t := rfl

/-- updateValue leaves the graph output list unchanged. -/
theorem updateValue_outputs (G : Graph) (vid : Int) (f : Value → Value) :
    (G.updateValue vid f).outputs = G.outputs := rfl

/-- Setting the producer of a value keeps the value id list. -/
theorem updateValue_producerSet_valueIds (G : Graph) (vid pid : Int) :
    (G.updateValue vid (fun v => { v with producer := some pid })).valueIds = G.valueIds :=
  valueIds_updateValue G vid _ (fun _ => rfl)

/-- When every existing node id is below the counter, looking the fresh id
up after Graph::AddNode returns the new node. -/
theorem findNode?_addNode_self (G : Graph) (op nm : String)
    (hfresh : ∀ n ∈ G.nodes, n.id < G.nextNodeId) :
    ((G.addNode op nm).1).findNode? G.nextNodeId =
      some { id := G.nextNodeId, opType := op, name := nm } := by
  rw [Graph.findNode?]
  show (G.nodes ++ [({ id := G.nextNodeId, opType := op, name := nm } : Node)]).find?
      (fun n => n.id == G.nextNodeId) =
    some { id := G.nextNodeId, opType := op, name := nm }
  refine find?_append_singleton _ G.nodes _ (fun x hx => ?_) (by simp)
  have hlt := hfresh x hx
  simp only [beq_eq_false_iff_ne]
  exact ne_of_lt hlt

/-- The attribute-copy fold of the fusion rewrites creates no value. -/
theorem attrsFold_valueIds (G : Graph) (fid : Int) (attrs : List (String × String)) :
    (attrs.foldl (fun h kv => h.updateNode fid (fun n => n.setAttribute kv.1 kv.2)) G).valueIds
      = G.valueIds :=
  foldl_measure_invariant Graph.valueIds attrs
    (fun h kv => h.updateNode fid (fun n => n.setAttribute kv.1 kv.2)) (fun _ _ => rfl) G

/-- The attribute-copy fold leaves the graph output list unchanged. -/
theorem attrsFold_outputs (G : Graph) (fid : Int) (attrs : List (String × String)) :
    (attrs.foldl (fun h kv => h.updateNode fid (fun n => n.setAttribute kv.1 kv.2)) G).outputs
      = G.outputs :=
  foldl_measure_invariant Graph.outputs attrs
    (fun h kv => h.updateNode fid (fun n => n.setAttribute kv.1 kv.2)) (fun _ _ => rfl) G

/-- The attribute-copy fold leaves every value lookup unchanged. -/
theorem attrsFold_findValue? (G : Graph) (fid : Int) (attrs : List (String × String))
    (t : Int) :
    (attrs.foldl (fun h kv => h.updateNode fid (fun n => n.setAttribute kv.1 kv.2)) G).findValue? t
      = G.findValue? t :=
  foldl_measure_invariant (fun h => h.findValue? t) attrs
    (fun h kv => h.updateNode fid (fun n => n.setAttribute kv.1 kv.2)) (fun _ _ => rfl) G

/-- The attribute-copy fold is invisible to the (op type, outputs)
observation of any node lookup. -/
theorem attrsFold_nodeObs (G : Graph) (fid : Int) (attrs : List (String × String))
    (t : Int) :
    ((attrs.foldl (fun h kv => h.updateNode fid (fun n => n.setAttribute kv.1 kv.2)) G).findNode? t).map
        (fun m => (m.opType, m.outputs))
      = (G.findNode? t).map (fun m => (m.opType, m.outputs)) :=
  foldl_measure_invariant (fun h => (h.findNode? t).map (fun m => (m.opType, m.outputs)))
    attrs _
    (fun h x => nodeObs_updateNode h fid _ t (fun m => setAttribute_id m x.1 x.2)
      (fun m => setAttribute_opType m x.1 x.2) (fun m => setAttribute_outputs m x.1 x.2)) G

/-- The input-wiring fold of the fusion rewrites creates no value. -/
theorem inputsFold_valueIds (G : Graph) (fid : Int) (vids : List Int) :
    (vids.foldl (fun h vid => h.nodeAddInput fid vid) G).valueIds = G.valueIds :=
  foldl_measure_invariant Graph.valueIds vids _ (fun h x => valueIds_nodeAddInput h fid x) G

/-- The input-wiring fold leaves the graph output list unchanged. -/
theorem inputsFold_outputs (G : Graph) (fid : Int) (vids : List Int) :
    (vids.foldl (fun h vid => h.nodeAddInput fid vid) G).outputs = G.outputs :=
  foldl_measure_invariant Graph.outputs vids _ (fun h x => outputs_nodeAddInput h fid x) G

/-- The input-wiring fold is invisible to the (op type, outputs)
observation of any node lookup. -/
theorem inputsFold_nodeObs (G : Graph) (fid : Int) (vids : List Int) (t : Int) :
    ((vids.foldl (fun h vid => h.nodeAddInput fid vid) G).findNode? t).map
        (fun m => (m.opType, m.outputs))
      = (G.findNode? t).map (fun m => (m.opType, m.outputs)) :=
  foldl_measure_invariant (fun h => (h.findNode? t).map (fun m => (m.opType, m.outputs)))
    vids _ (fun h x => nodeObs_nodeAddInput h fid x t) G

/-- The input-wiring fold never creates or destroys a value binding. -/
theorem inputsFold_isSome (G : Graph) (fid : Int) (vids : List Int) (t : Int) :
    ((vids.foldl (fun h vid => h.nodeAddInput fid vid) G).findValue? t).isSome
      = (G.findValue? t).isSome :=
  foldl_measure_invariant (fun h => (h.findValue? t).isSome) vids _
    (fun h x => findValue?_isSome_nodeAddInput h fid x t) G

/-- Node::AddOutput on a node with an empty output list makes the value its
sole output, as seen through the (op type, outputs) observation. -/
theorem nodeObs_nodeAddOutput_fresh (G : Graph) (nid vid : Int) (op : String)
    (h : (G.findNode? nid).map (fun m => (m.opType, m.outputs)) = some (op, [])) :
    ((G.nodeAddOutput nid vid).findNode? nid).map (fun m => (m.opType, m.outputs))
      = some (op, [vid]) := by
  cases hm : G.findNode? nid with
  | none => rw [hm] at h; cases h
  | some m =>
    rw [hm] at h
    simp only [Option.map_some'] at h
    injection h with h
    have hop : m.opType = op := congrArg Prod.fst h
    have houts : m.outputs = [] := congrArg Prod.snd h
    simp only [Graph.nodeAddOutput, hm]
    rw [if_neg (show vid ∉ m.outputs by rw [houts]; exact List.not_mem_nil vid)]
    rw [findNode?_updateValue,
      findNode?_updateNode_self G nid (fun m2 => { m2 with outputs := m2.outputs ++ [vid] })
        m (fun m2 => rfl) hm]
    simp [hop, houts]

/-- Setting the producer of an existing value makes its observed producer
that node. -/
theorem producerAt_updateValue_set (G : Graph) (vid pid : Int)
    (h : (G.findValue? vid).isSome = true) :
    ((G.updateValue vid (fun v => { v with producer := some pid })).findValue? vid).map
      (fun v => v.producer) = some (some pid) := by
  obtain ⟨v, hv⟩ := Option.isSome_iff_exists.mp h
  rw [findValue?_updateValue_self G vid (fun v => { v with producer := some pid })
    v (fun w => rfl) hv]
  rfl

/-- Looking up any other node id after Graph::RemoveNode is unchanged. -/
theorem findNode?_removeNode_ne (g : Graph) (nid t : Int) (ht : t ≠ nid) :
    (g.removeNode nid).findNode? t = g.findNode? t := by
  cases hf : g.findNode? nid with
  | none => simp only [Graph.removeNode, hf]
  | some n =>
    have hL : (g.removeNode nid).findNode? t
        = ((g.removeNode nid).nodes).find? (fun m => m.id == t) := rfl
    rw [hL, removeNode_nodes g nid n hf]
    cases hres : g.findNode? t with
    | none =>
      have hres2 : g.nodes.find? (fun m => m.id == t) = none := hres
      refine List.find?_eq_none.mpr (fun x hx => ?_)
      exact List.find?_eq_none.mp hres2 x (List.mem_of_mem_filter hx)
    | some a =>
      have hres2 : g.nodes.find? (fun m => m.id == t) = some a := hres
      have hat : a.id = t := by simpa using List.find?_some hres2
      refine find?_filter _ _ g.nodes a hres2 ?_
      rw [hat]
      simpa using ht

/-- Graph::RemoveNode never clears the producer of a value produced by a
different node. -/
theorem producerAt_removeNode (g : Graph) (nid t pid : Int) (hne : pid ≠ nid)
    (h : (g.findValue? t).map (fun v => v.producer) = some (some pid)) :
    ((g.removeNode nid).findValue? t).map (fun v => v.producer) = some (some pid) := by
  cases hf : g.findNode? nid with
  | none => simpa only [Graph.removeNode, hf] using h
  | some n =>
    have hstep1 : ∀ (h2 : Graph) (x : Int),
        ((h2.updateValue x (fun v => v.removeConsumer nid)).findValue? t).map
          (fun v => v.producer) = (h2.findValue? t).map (fun v => v.producer) := by
      intro h2 x
      rw [findValue?_updateValue_eval h2 x (fun v => v.removeConsumer nid) (fun w => rfl) t]
      cases h2.findValue? t with
      | none => rfl
      | some v =>
        simp only [Option.map_some']
        congr 1
        split
        · rfl
        · rfl
    have step1 : ((n.inputs.foldl (fun h2 vid =>
        h2.updateValue vid (fun v => v.removeConsumer nid)) g).findValue? t).map
          (fun v => v.producer) = some (some pid) := by
      rw [foldl_measure_invariant (fun h2 => (h2.findValue? t).map (fun v => v.producer))
        n.inputs _ hstep1 g]
      exact h
    have step2 : ((n.outputs.foldl (fun h2 vid => h2.updateValue vid
        (fun v => if v.producer == some nid then { v with producer := none } else v))
        (n.inputs.foldl (fun h2 vid =>
          h2.updateValue vid (fun v => v.removeConsumer nid)) g)).findValue? t).map
          (fun v => v.producer) = some (some pid) := by
      refine foldl_prop_invariant n.outputs _
        (fun h2 => (h2.findValue? t).map (fun v => v.producer) = some (some pid))
        ?_ _ step1
      intro h2 x hP
      rw [findValue?_updateValue_eval h2 x
        (fun v => if v.producer == some nid then { v with producer := none } else v)
        (fun w => by beta_reduce; split <;> rfl) t]
      cases hv : h2.findValue? t with
      | none => rw [hv] at hP; cases hP
      | some v =>
        rw [hv] at hP
        simp only [Option.map_some'] at hP ⊢
        injection hP with hP
        congr 1
        beta_reduce
        split
        · rw [hP, if_neg (by simpa using hne)]
          exact hP
        · exact hP
    simp only [Graph.removeNode, hf]
    exact step2

/-- C4.  Fusion preserves output identity: both FuseMatMulAdd and
FuseConvBNReLU reuse the tail operator output Value as the fused node
output.  Under the graph-API invariants (the two or three pattern nodes
are found, the tail node has an output whose Value exists in the arena,
and every node id is below the id counter, which Graph::AddNode
guarantees), the rewrite creates no value (the arena id list is
unchanged), leaves the graph output id list untouched, gives the fused
node exactly the tail output as its sole output, and sets the producer of
that same Value to the fused node - so graph outputs that referenced the
tail output still refer to the same Value. -/
theorem fusion_output_identity :
    (∀ (g : Graph) (matmulId addId : Int) (matmul add : Node)
        (mOut aOut : Int) (mrest arest : List Int),
      g.findNode? matmulId = some matmul →
      g.findNode? addId = some add →
      matmul.outputs = mOut :: mrest →
      add.outputs = aOut :: arest →
      (g.findValue? aOut).isSome = true →
      (∀ n ∈ g.nodes, n.id < g.nextNodeId) →
      (fuseMatMulAdd g matmulId addId).valueIds = g.valueIds ∧
      (fuseMatMulAdd g matmulId addId).outputs = g.outputs ∧
      ((fuseMatMulAdd g matmulId addId).findNode? g.nextNodeId).map
          (fun m => (m.opType, m.outputs)) = some ("FusedMatMulAdd", [aOut]) ∧
      ((fuseMatMulAdd g matmulId addId).findValue? aOut).map
          (fun v => v.producer) = some (some g.nextNodeId)) ∧
    (∀ (g : Graph) (convId bnId reluId : Int) (conv bn relu : Node)
        (rOut : Int) (rrest : List Int),
      g.findNode? convId = some conv →
      g.findNode? bnId = some bn →
      g.findNode? reluId = some relu →
      relu.outputs = rOut :: rrest →
      (g.findValue? rOut).isSome = true →
      (∀ n ∈ g.nodes, n.id < g.nextNodeId) →
      (fuseConvBNReLU g convId bnId reluId).valueIds = g.valueIds ∧
      (fuseConvBNReLU g convId bnId reluId).outputs = g.outputs ∧
      ((fuseConvBNReLU g convId bnId reluId).findNode? g.nextNodeId).map
          (fun m => (m.opType, m.outputs)) = some ("FusedConvBNReLU", [rOut]) ∧
      ((fuseConvBNReLU g convId bnId reluId).findValue? rOut).map
          (fun v => v.producer) = some (some g.nextNodeId)) := by
  constructor
  · intro g matmulId addId matmul add mOut aOut mrest arest hm ha hmo hao hv hfresh
    have hmm := findNode?_some_mem g matmulId matmul hm
    have haa := findNode?_some_mem g addId add ha
    have hmlt : matmulId < g.nextNodeId := hmm.2 ▸ hfresh matmul hmm.1
    have halt : addId < g.nextNodeId := haa.2 ▸ hfresh add haa.1
    simp only [fuseMatMulAdd, hm, ha, hmo, hao, addNode_snd]
    cases hbias : add.inputs.find? (fun vid => vid != mOut) with
    | none =>
      refine ⟨?_, ?_, ?_, ?_⟩
      · rw [valueIds_removeNode, valueIds_removeNode, updateValue_producerSet_valueIds,
          valueIds_nodeAddOutput, inputsFold_valueIds, attrsFold_valueIds, valueIds_addNode]
      · rw [removeNode_outputs, removeNode_outputs, updateValue_outputs,
          outputs_nodeAddOutput, inputsFold_outputs, attrsFold_outputs, outputs_addNode]
      · rw [findNode?_removeNode_ne _ _ _ (ne_of_gt hmlt),
          findNode?_removeNode_ne _ _ _ (ne_of_gt halt), findNode?_updateValue]
        refine nodeObs_nodeAddOutput_fresh _ _ _ _ ?_
        rw [inputsFold_nodeObs, attrsFold_nodeObs, findNode?_addNode_self g _ _ hfresh]
        rfl
      · refine producerAt_removeNode _ _ _ _ (ne_of_gt hmlt) ?_
        refine producerAt_removeNode _ _ _ _ (ne_of_gt halt) ?_
        refine producerAt_updateValue_set _ _ _ ?_
        rw [findValue?_isSome_nodeAddOutput, inputsFold_isSome, attrsFold_findValue?,
          findValue?_addNode]
        exact hv
    | some bias =>
      refine ⟨?_, ?_, ?_, ?_⟩
      · rw [valueIds_removeNode, valueIds_removeNode, updateValue_producerSet_valueIds,
          valueIds_nodeAddOutput, valueIds_nodeAddInput, inputsFold_valueIds,
          attrsFold_valueIds, valueIds_addNode]
      · rw [removeNode_outputs, removeNode_outputs, updateValue_outputs,
          outputs_nodeAddOutput, outputs_nodeAddInput, inputsFold_outputs,
          attrsFold_outputs, outputs_addNode]
      · rw [findNode?_removeNode_ne _ _ _ (ne_of_gt hmlt),
          findNode?_removeNode_ne _ _ _ (ne_of_gt halt), findNode?_updateValue]
        refine nodeObs_nodeAddOutput_fresh _ _ _ _ ?_
        rw [nodeObs_nodeAddInput, inputsFold_nodeObs, attrsFold_nodeObs,
          findNode?_addNode_self g _ _ hfresh]
        rfl
      · refine producerAt_removeNode _ _ _ _ (ne_of_gt hmlt) ?_
        refine producerAt_removeNode _ _ _ _ (ne_of_gt halt) ?_
        refine producerAt_updateValue_set _ _ _ ?_
        rw [findValue?_isSome_nodeAddOutput, findValue?_isSome_nodeAddInput,
          inputsFold_isSome, attrsFold_findValue?, findValue?_addNode]
        exact hv
  · intro g convId bnId reluId conv bn relu rOut rrest hc hb hr hro hv hfresh
    have hcc := findNode?_some_mem g convId conv hc
    have hbb := findNode?_some_mem g bnId bn hb
    have hrr := findNode?_some_mem g reluId relu hr
    have hclt : convId < g.nextNodeId := hcc.2 ▸ hfresh conv hcc.1
    have hblt : bnId < g.nextNodeId := hbb.2 ▸ hfresh bn hbb.1
    have hrlt : reluId < g.nextNodeId := hrr.2 ▸ hfresh relu hrr.1
    simp only [fuseConvBNReLU, hc, hb, hr, hro, addNode_snd]
    refine ⟨?_, ?_, ?_, ?_⟩
    · rw [valueIds_removeNode, valueIds_removeNode, valueIds_removeNode,
        updateValue_producerSet_valueIds, valueIds_nodeAddOutput, inputsFold_valueIds,
        inputsFold_valueIds, attrsFold_valueIds, valueIds_addNode]
    · rw [removeNode_outputs, removeNode_outputs, removeNode_outputs,
        updateValue_outputs, outputs_nodeAddOutput, inputsFold_outputs,
        inputsFold_outputs, attrsFold_outputs, outputs_addNode]
    · rw [findNode?_removeNode_ne _ _ _ (ne_of_gt hclt),
        findNode?_removeNode_ne _ _ _ (ne_of_gt hblt),
        findNode?_removeNode_ne _ _ _ (ne_of_gt hrlt), findNode?_updateValue]
      refine nodeObs_nodeAddOutput_fresh _ _ _ _ ?_
      rw [inputsFold_nodeObs, inputsFold_nodeObs, attrsFold_nodeObs,
        findNode?_addNode_self g _ _ hfresh]
      rfl
    · refine producerAt_removeNode _ _ _ _ (ne_of_gt hclt) ?_
      refine producerAt_removeNode _ _ _ _ (ne_of_gt hblt) ?_
      refine producerAt_removeNode _ _ _ _ (ne_of_gt hrlt) ?_
      refine producerAt_updateValue_set _ _ _ ?_
      rw [findValue?_isSome_nodeAddOutput, inputsFold_isSome, inputsFold_isSome,
        attrsFold_findValue?, findValue?_addNode]
      exact hv

/-- Witness for C4 on gFuse: fusing its MatMul (node 0) and Add (node 1)
creates no value, keeps the graph outputs, makes the Add output 14 the
sole output of the fused node 3 and sets its producer to node 3. -/
theorem fusion_output_identity_witness :
    (fuseMatMulAdd gFuse 0 1).valueIds = gFuse.valueIds ∧
    (fuseMatMulAdd gFuse 0 1).outputs = gFuse.outputs ∧
    ((fuseMatMulAdd gFuse 0 1).findNode? 3).map (fun m => (m.opType, m.outputs))
      = some ("FusedMatMulAdd", [14]) ∧
    ((fuseMatMulAdd gFuse 0 1).findValue? 14).map (fun v => v.producer)
      = some (some 3) :=
  fusion_output_identity.1 gFuse 0 1
    { id := 0, opType := "MatMul", name := "mm", inputs := [10, 11], outputs := [12] }
    { id := 1, opType := "Add", name := "add", inputs := [12, 13], outputs := [14] }
    12 14 [] [] rfl rfl rfl rfl rfl (by decide)

end InferUnity
